import Mathlib

/-!
Verification of the NeverSQL storage engine specification against a shallow
embedding of the C++ sources.  Bytes are modelled as natural numbers
(values 0..255), pages as lists of bytes, and multi-byte integers as
little-endian byte sequences, matching the memcpy-based access in the code.
-/

namespace NeverSQL

/-! ## Byte-level helpers

`leBytes k n` is the little-endian `k`-byte encoding of `n` (the result of
`memcpy` from a `k`-byte unsigned integer on a little-endian machine);
`leVal bs` decodes a little-endian byte list back to a natural number.
-/

def leBytes (k n : Nat) : List Nat :=
  match k with
  | 0 => []
  | k + 1 => n % 256 :: leBytes k (n / 256)

def leVal : List Nat → Nat
  | [] => 0
  | b :: bs => b % 256 + 256 * leVal bs

/-- Overwrite the bytes of `page` starting at `off` with `data`
(models `memcpy(page + off, data, data.size())`). -/
def writeBytes (page : List Nat) (off : Nat) (data : List Nat) : List Nat :=
  page.take off ++ data ++ page.drop (off + data.length)

/-- Read `len` bytes of `page` starting at `off`
(models `Page::GetSpan(offset, len)`). -/
def readBytes (page : List Nat) (off len : Nat) : List Nat :=
  (page.drop off).take len

/-- Read a `k`-byte little-endian unsigned integer at `off`
(models `Page::Read<T>(offset)`, which memcpys `sizeof(T)` bytes). -/
def readLE (page : List Nat) (off k : Nat) : Nat :=
  leVal (readBytes page off k)

/-! ## WAL updates through a transactional page write (claim C9)

Models `RCPage::writeToPage` (src/neversql/data/Page.cpp) in the
`omit_log = false` case together with `WriteAheadLog::Update`
(src/neversql/recovery/WriteAheadLog.cpp).  `WriteAheadLog::Update` appends
an UPDATE record carrying `next_sequence_number_++` as its LSN; the page
write passes `GetSpan(offset, data.size())` — the bytes currently stored at
the target range — as `data_old` and only then memcpys the new data in.
-/

structure UpdateRecord where
  txn : Nat
  lsn : Nat
  page : Nat
  offset : Nat
  oldBytes : List Nat
  newBytes : List Nat
deriving Repr, DecidableEq

structure WalState where
  nextLsn : Nat
  records : List UpdateRecord
deriving Repr, DecidableEq

/-- The WAL as constructed by `WriteAheadLog::WriteAheadLog`:
`next_sequence_number_` starts at 1 and no records have been written. -/
def walInit : WalState := { nextLsn := 1, records := [] }

structure PageState where
  pageNumber : Nat
  bytes : List Nat
deriving Repr, DecidableEq

/-- `RCPage::writeToPage(offset, data, omit_log = false)`:
checks `offset + data.size() <= page_size`, appends an UPDATE record built
from the transaction id, the fresh LSN, the page number, the offset, the
bytes currently at the target range (`GetSpan(offset, data.size())`) and the
new bytes, then copies `data` into the page.  Returns the page, the WAL and
the offset one past the write.  `none` models the `NOSQL_REQUIRE` failure. -/
def rcWriteToPage (txn : Nat) (pg : PageState) (wal : WalState) (offset : Nat)
    (data : List Nat) : Option (PageState × WalState × Nat) :=
  if offset + data.length ≤ pg.bytes.length then
    let oldB := readBytes pg.bytes offset data.length
    let r : UpdateRecord :=
      { txn := txn, lsn := wal.nextLsn, page := pg.pageNumber, offset := offset,
        oldBytes := oldB, newBytes := data }
    some ({ pg with bytes := writeBytes pg.bytes offset data },
          { nextLsn := wal.nextLsn + 1, records := wal.records ++ [r] },
          offset + data.length)
  else
    none

/-- Apply a sequence of transactional writes `(offset, data)` to one page,
threading the WAL. -/
def replayWrites (txn : Nat) : List (Nat × List Nat) → PageState → WalState →
    Option (PageState × WalState)
  | [], pg, wal => some (pg, wal)
  | (off, data) :: ops, pg, wal =>
    match rcWriteToPage txn pg wal off data with
    | some (pg', wal', _) => replayWrites txn ops pg' wal'
    | none => none

/-! ## B-tree root creation and the auto-increment counter (claims C10, C4 helpers)

Byte layout of a B-tree page header (src/neversql/data/btree/BTreePageHeader.h):
magic number at offset 0 (8 bytes), flags at 8, free_begin at 9, free_end
at 11, reserved_start at 13, page_number at 15, additional_data at 23;
pointers start at 31.
-/

def MAGIC_NOSQLBTR : List Nat := [78, 79, 83, 81, 76, 66, 84, 82]

def POINTERS_START : Nat := 31

/-- `BTreePageHeader::InitializePage`: writes the magic number, the page
number, the flags (the page type), `reserved_start = page_size - reserved`,
`free_end = reserved_start` and `free_begin = 31` into a page buffer. -/
def initializePage (page : List Nat) (pageNumber : Nat) (typeFlags : Nat)
    (reservedSize : Nat) : List Nat :=
  let p := writeBytes page 0 MAGIC_NOSQLBTR
  let p := writeBytes p 15 (leBytes 8 pageNumber)
  let p := writeBytes p 8 [typeFlags % 256]
  let reservedStart := page.length - reservedSize
  let p := writeBytes p 13 (leBytes 2 reservedStart)
  let p := writeBytes p 11 (leBytes 2 reservedStart)
  writeBytes p 9 (leBytes 2 POINTERS_START)

/-- Key-type tags of `DataTypeEnum` (src/neversql/utility/DataTypes.h). -/
inductive DataTypeEnum where
  | nullT | double | string | document | array | binaryData | boolean
  | dateTime | int32 | int64 | uint64
deriving Repr, DecidableEq

def DataTypeEnum.tag : DataTypeEnum → Nat
  | .nullT => 0
  | .double => 1
  | .string => 2
  | .document => 3
  | .array => 4
  | .binaryData => 5
  | .boolean => 6
  | .dateTime => 7
  | .int32 => 8
  | .int64 => 9
  | .uint64 => 10

/-- `BTreeManager::CreateNewBTree` (src/neversql/data/btree/BTree.cpp,
lines 138-177) acting on the byte buffer of the cache slot that backs the
fresh root page.  `slotBytes` is the prior content of that buffer (the page
cache does not clear a slot before reuse).  Reserved space is
`2 + 2*8` bytes, plus 8 more when the key type is uint64.  After
`InitializePage` (type `RootLeaf = 0b010`; the `0b100` header flag is added
for string keys) the code writes, starting at `reserved_start`: the key
type tag (1 byte), a zero flags byte (1 byte), and — only for uint64 keys —
a zero 8-byte integer at `reserved_start + 2`. -/
def createNewBTreeRootPage (slotBytes : List Nat) (pageNumber : Nat)
    (keyType : DataTypeEnum) : List Nat :=
  let reserved := if keyType = .uint64 then 2 + 2 * 8 + 8 else 2 + 2 * 8
  let p := initializePage slotBytes pageNumber 0b010 reserved
  let p := if keyType = .string then writeBytes p 8 [(readLE p 8 1 ||| 0b100) % 256] else p
  let rs := slotBytes.length - reserved
  let p := writeBytes p rs [keyType.tag]
  let p := writeBytes p (rs + 1) [0]
  if keyType = .uint64 then writeBytes p (rs + 2) (leBytes 8 0) else p

/-- `BTreeManager::getNextPrimaryKey` (src/neversql/data/btree/BTree.cpp,
lines 288-306): reads the 8-byte counter at `reserved_start + 2 + 2*8`,
writes back that value plus one (as a 64-bit integer), and returns the value
read.  The result is the returned key and the updated root page bytes. -/
def getNextPrimaryKey (page : List Nat) : Nat × List Nat :=
  let counterOffset := readLE page 13 2 + (2 + 2 * 8)
  let pk := readLE page counterOffset 8
  (pk, writeBytes page counterOffset (leBytes 8 (pk + 1)))

/-! ## Overflow continuation cells (claims C7, C2)

`EntryCreator::createOverflowDataEntry` (src/neversql/data/btree/
EntryCreator.cpp, lines 131-157) writes, at the entry position of a
continuation cell: the 2-byte entry size `sizeof(primary_key_t) +
next_overflow_entry_size_` (that is, `8 + chunk length`), then the 8-byte
next-overflow-page number, then the chunk bytes one at a time.
-/

/-- Write the chunk bytes of an overflow continuation entry one byte at a
time (the `for` loop in `createOverflowDataEntry`), returning the page and
the offset after the last byte. -/
def writeChunkBytes : List Nat → List Nat → Nat → List Nat × Nat
  | page, [], off => (page, off)
  | page, b :: rest, off => writeChunkBytes (writeBytes page off [b]) rest (off + 1)

/-- `EntryCreator::createOverflowDataEntry`: writes
`[entry_size:2][next_page:8][chunk bytes]` at `off`, where
`entry_size = 8 + chunk.length`, and returns the page and the offset one
past the entry. -/
def createOverflowDataEntry (page : List Nat) (off : Nat) (nextPage : Nat)
    (chunk : List Nat) : List Nat × Nat :=
  let entrySize := 8 + chunk.length
  let p := writeBytes page off (leBytes 2 entrySize)
  let p := writeBytes p (off + 2) (leBytes 8 nextPage)
  writeChunkBytes p chunk (off + 10)

/-- The continuation-cell payload layout stated by the specification:
`[next_page:8][chunk_size:2][chunk_bytes]` with `chunk_size` the number of
chunk bytes.  Used to compare the spec's words with the source. -/
def specOverflowCellPayload (nextPage : Nat) (chunk : List Nat) : List Nat :=
  leBytes 8 nextPage ++ leBytes 2 chunk.length ++ chunk

/-! ## Page cache (claims C5, C6)

Model of `PageCache` (src/neversql/data/PageCache.cpp) and its
`PageDescriptor`.  The contiguous page buffer is not modelled; the claims
concern the frame descriptors, the frame index, the slot free list and the
clock hand.
-/

structure PageDescriptor where
  pageNumber : Nat
  usageCount : Nat
  valid : Bool
  dirty : Bool
  secondChance : Bool
deriving Repr, DecidableEq

/-- `PageDescriptor::ReleaseDescriptor` resets the slot to the empty state
(the magic empty page number, zero usage, all flags cleared). -/
def releaseDescriptor : PageDescriptor :=
  { pageNumber := 5675675675675675675, usageCount := 0,
    valid := false, dirty := false, secondChance := false }

structure CacheState where
  frames : List PageDescriptor
  /-- The clock hand `next_victim_`. -/
  nextVictim : Nat
  /-- The cache's own free list of slot indices (`cache_free_list_`). -/
  freeSlots : List Nat
  /-- The frame index `page_number_to_slot_`, as an association list. -/
  pageToSlot : List (Nat × Nat)
  /-- Pages flushed to the data access layer by eviction write-backs. -/
  flushed : List Nat
deriving Repr, DecidableEq

def CacheState.frame (st : CacheState) (slot : Nat) : PageDescriptor :=
  st.frames.getD slot releaseDescriptor

def CacheState.setFrame (st : CacheState) (slot : Nat) (d : PageDescriptor) :
    CacheState :=
  { st with frames := st.frames.set slot d }

def lookupSlot (st : CacheState) (pageNumber : Nat) : Option Nat :=
  (st.pageToSlot.find? (fun p => p.1 = pageNumber)).map (·.2)

/-- `PageCache::tryReleasePage(slot)`: fails (returns `false`) when the
frame is pinned (`0 < usage_count`); succeeds doing nothing when the frame
is not valid; otherwise flushes the page if dirty, resets the descriptor,
erases the frame-index entry and pushes the slot onto the free list. -/
def tryReleasePage (st : CacheState) (slot : Nat) : Bool × CacheState :=
  let d := st.frame slot
  if 0 < d.usageCount then
    (false, st)
  else if ¬ d.valid then
    (true, st)
  else
    let st := if d.dirty then { st with flushed := st.flushed ++ [d.pageNumber] } else st
    let st := st.setFrame slot releaseDescriptor
    let st := { st with
                pageToSlot := st.pageToSlot.filter (fun p => p.1 ≠ d.pageNumber),
                freeSlots := st.freeSlots ++ [slot] }
    (true, st)

/-- The clock sweep of `PageCache::evictNextVictim`: while the frame under
the hand has its second-chance bit set, clear the bit and advance the hand;
stop after `cache_size` steps even if the bit is still set.  Returns the
state with the cleared bits and the hand position where the sweep stopped.
`fuel` starts at `cache_size` (the `count` bound in the loop). -/
def clockSweep (st : CacheState) (hand : Nat) : Nat → CacheState × Nat
  | 0 => (st, hand)
  | fuel + 1 =>
    let d := st.frame hand
    if d.secondChance then
      let st := st.setFrame hand { d with secondChance := false }
      clockSweep st ((hand + 1) % st.frames.length) fuel
    else
      (st, hand)

/-- `PageCache::evictNextVictim`: run the clock sweep from `next_victim_`,
then `NOSQL_ASSERT(tryReleasePage(victim))` — `none` models that assertion
firing (the release failed because the chosen frame is pinned).  On success
the hand moves one past the victim and the victim slot is returned. -/
def evictNextVictim (st : CacheState) : Option (CacheState × Nat) :=
  let (st, victim) := clockSweep st st.nextVictim st.frames.length
  match tryReleasePage st victim with
  | (false, _) => none
  | (true, st) =>
    some ({ st with nextVictim := (victim + 1) % st.frames.length }, victim)

/-- `PageCache::getSlot`: pop a slot from the cache free list; when the
free list is empty, evict a victim and take the freed slot. -/
def getSlot (st : CacheState) : Option (CacheState × Nat) :=
  match st.freeSlots with
  | slot :: rest => some ({ st with freeSlots := rest }, slot)
  | [] =>
    match evictNextVictim st with
    | some (st, _victim) =>
      match st.freeSlots with
      | slot :: rest => some ({ st with freeSlots := rest }, slot)
      | [] => none
    | none => none

/-- `PageCache::initializePage(slot, page_number)`: installs the frame-index
mapping and sets up the descriptor with `usage_count = 0`,
`valid = true` and the page number. -/
def cacheInitializePage (st : CacheState) (slot pageNumber : Nat) : CacheState :=
  let st := { st with pageToSlot := (pageNumber, slot) :: st.pageToSlot.filter (fun p => p.1 ≠ pageNumber) }
  let d := st.frame slot
  st.setFrame slot { d with valid := true, pageNumber := pageNumber, usageCount := 0 }

/-- `PageCache::getPageFromSlot(slot)`: requires a valid descriptor,
increments the usage count, sets the second-chance bit, and returns a handle
to the page in the slot. -/
def getPageFromSlot (st : CacheState) (slot : Nat) : Option (CacheState × Nat) :=
  let d := st.frame slot
  if d.valid then
    some (st.setFrame slot { d with usageCount := d.usageCount + 1, secondChance := true },
          d.pageNumber)
  else
    none

/-- `PageCache::GetPage(page_number)`: if the page is in the frame index,
return a handle from its slot (bumping usage and second chance); otherwise
acquire a slot, install the mapping (`initializePage`), and return a handle
from the slot (`getPageFromSlot`), loading the page from the DAL.  The
returned number is the page number the handle refers to. -/
def cacheGetPage (st : CacheState) (pageNumber : Nat) : Option (CacheState × Nat) :=
  match lookupSlot st pageNumber with
  | some slot => getPageFromSlot st slot
  | none =>
    match getSlot st with
    | some (st, slot) =>
      let st := cacheInitializePage st slot pageNumber
      getPageFromSlot st slot
    | none => none

/-- `PageCache::GetNewPage()`: acquire a slot, map a handle onto the slot's
buffer (`mapPageFromSlot`, which touches no descriptor), ask the DAL for a
fresh page number, then install the descriptor with `initializePage` —
which sets `usage_count = 0`.  No usage increment is ever made for the
returned handle.  Returns the state, the slot, and the new page number. -/
def cacheGetNewPage (st : CacheState) (freshPageNumber : Nat) :
    Option (CacheState × Nat × Nat) :=
  match getSlot st with
  | some (st, slot) =>
    let st := cacheInitializePage st slot freshPageNumber
    some (st, slot, freshPageNumber)
  | none => none

/-- `PageCache::decrementUsage(slot)`: decrements the usage count when the
descriptor is valid and the count is positive. -/
def decrementUsage (st : CacheState) (slot : Nat) : CacheState :=
  let d := st.frame slot
  if d.valid ∧ 0 < d.usageCount then
    st.setFrame slot { d with usageCount := d.usageCount - 1 }
  else
    st

/-- `RCPage::~RCPage` calls `PageCache::ReleasePage(page_number)`, which
looks the page up in the frame index and decrements the slot's usage
count (`none` models the `NOSQL_FAIL` when the page is not in the cache). -/
def cacheReleasePage (st : CacheState) (pageNumber : Nat) : Option CacheState :=
  match lookupSlot st pageNumber with
  | some slot => some (decrementUsage st slot)
  | none => none

/-! ## Data manager construction (claim C3)

Model of `DataManager::DataManager` (src/source/NeverSQL/database/
DataManager.cpp, lines 12-35) and `DataManager::AddCollection`.  The
persistent state is the meta page's collection-index page number together
with the contents of the collection index B-tree (documents
`{collection_name, index_page_number}`, here name/page pairs).
-/

structure PersistentDB where
  /-- `meta.GetIndexPage()`; 0 when the database was just initialized. -/
  indexPage : Nat
  /-- Entries of the persisted collection-index B-tree. -/
  indexEntries : List (String × Nat)
deriving Repr, DecidableEq

structure DataManagerState where
  db : PersistentDB
  /-- The in-memory `collections_` map (name, B-tree root page). -/
  collections : List (String × Nat)
deriving Repr, DecidableEq

/-- `DataManager::DataManager`: if `meta.GetIndexPage() == 0`, create a new
(string-keyed, empty) collection-index B-tree at `freshIndexPage` and store
its root into the meta page.  Otherwise open the existing collection index —
and nothing more: the constructor ends with
`// TODO: Traverse all the collections and cache them as BTreeManagers in collections_.`,
so the in-memory `collections_` map is left empty. -/
def openDataManager (db : PersistentDB) (freshIndexPage : Nat) : DataManagerState :=
  if db.indexPage = 0 then
    { db := { indexPage := freshIndexPage, indexEntries := [] }, collections := [] }
  else
    { db := db, collections := [] }

/-- `DataManager::AddCollection`: create a fresh B-tree for the collection,
record `{collection_name, root page}` in the persisted collection index and
in the in-memory `collections_` map. -/
def addCollection (st : DataManagerState) (name : String) (rootPage : Nat) :
    DataManagerState :=
  { db := { st.db with indexEntries := st.db.indexEntries ++ [(name, rootPage)] },
    collections := st.collections ++ [(name, rootPage)] }

/-- The set of collection names the data manager knows about, as read from
the in-memory `collections_` map (the map every lookup, `AddValue`,
`Search`, `Begin` and the collection-name listing consult). -/
def collectionNames (st : DataManagerState) : List String :=
  st.collections.map (·.1)

/-! ## Cell-level B-tree node model and `splitSingleNode` (claim C8)

`splitSingleNode` (src/neversql/data/btree/BTree.cpp, lines 554-689) is
modelled at the level of cells: a node is its ordered list of cells (the
pointer array, in pointer order) plus the rightmost-child slot
(`additional_data`) for pointers pages.  Keys are abstract, compared with
the tree's comparator `cmp` (`CompareTrivial<uint64_t>` or
`CompareString`), exactly as the code dispatches through `cmp_`.
Page-space bookkeeping (offsets, free_begin/free_end, vacuum) is below this
abstraction level; the cell-level `addCellToNode` models the
cell-visible effect of `addElementToNode` on a node with enough free
space: the uniqueness check through `lower_bound`, the rightmost append of
the new cell, and the `sortKeys` pass when the new key is not the largest.
-/

structure NodeCell (K : Type) where
  key : K
  /-- For a pointers-page cell, the child page number; for a data cell the
  model does not inspect the payload, so it is kept as opaque bytes. -/
  childPage : Nat
  payload : List Nat
deriving Repr, DecidableEq

structure CellNode (K : Type) where
  isPointers : Bool
  cells : List (NodeCell K)
  additionalData : Nat
deriving Repr, DecidableEq

/-- `std::ranges::lower_bound` over the pointer array: index of the first
cell whose key `k'` has `¬ cmp k' key` (the first key that is not less than
`key`); `none` when every key is less. -/
def lowerBoundIdx (cmp : K → K → Bool) (keys : List K) (key : K) : Option Nat :=
  keys.findIdx? (fun k => ¬ cmp k key)

/-- `BTreeManager::isUniqueKey`: look up the lower bound of the key; if a
cell is found there and its key equals the new key (`std::ranges::equal`),
the key is not unique. -/
def isUniqueKey [DecidableEq K] (cmp : K → K → Bool) (node : CellNode K) (key : K) :
    Bool :=
  match lowerBoundIdx cmp (node.cells.map (·.key)) key with
  | some i =>
    match node.cells.get? i with
    | some c => c.key ≠ key
    | none => true
  | none => true

/-- Insertion sort by the comparator; models the `std::ranges::sort` in
`BTreeNodeMap::sortKeys` (on the distinct keys the tree maintains, sorting
has a unique result, so the choice of algorithm is immaterial). -/
def insertSorted (cmp : K → K → Bool) (c : NodeCell K) :
    List (NodeCell K) → List (NodeCell K)
  | [] => [c]
  | d :: rest => if cmp c.key d.key then c :: d :: rest else d :: insertSorted cmp c rest

def sortCells (cmp : K → K → Bool) : List (NodeCell K) → List (NodeCell K)
  | [] => []
  | c :: rest => insertSorted cmp c (sortCells cmp rest)

/-- Cell-level `BTreeManager::addElementToNode` with `unique_keys = true`
on a node with sufficient free space: reject a duplicate key found through
`lower_bound` (returning `false` and the unchanged node); otherwise record
the previous largest key, append the cell after the existing cells (the new
cell is written into the heap and its pointer appended at `free_begin`),
and `sortKeys` when the new key is not the largest. -/
def addCellToNode [DecidableEq K] (cmp : K → K → Bool) (node : CellNode K)
    (c : NodeCell K) : Bool × CellNode K :=
  if ¬ isUniqueKey cmp node c.key then
    (false, node)
  else
    let greatest := (node.cells.map (·.key)).getLast?
    let cells := node.cells ++ [c]
    let cells :=
      match greatest with
      | some g => if cmp c.key g then sortCells cmp cells else cells
      | none => cells
    (true, { node with cells := cells })

/-- `BTreeManager::lte`: `cmp_(key1, key2)` or byte-wise equality. -/
def keyLte [DecidableEq K] (cmp : K → K → Bool) (k1 k2 : K) : Bool :=
  cmp k1 k2 || k1 = k2

structure SplitData (K : Type) where
  /-- Page-level state of the freshly allocated left sibling after the move
  loop (`new_node`), before the provoking entry is considered. -/
  movedNode : CellNode K
  /-- The left sibling after the optional re-insert of the provoking entry. -/
  leftNode : CellNode K
  /-- The original (right) node after the split. -/
  rightNode : CellNode K
  /-- The separator key handed to the parent (`return_data.split_key`). -/
  splitKey : K
deriving Repr

/-- `BTreeManager::splitSingleNode`: allocate a sibling of the same type;
move `N/2` (balanced; key type is not uint64) or `N-1` (unbalanced; key
type uint64) low cells into it; the separator key is the key of the cell at
index `num_elements_to_move - 1`; for a pointers page that cell's child also
becomes the sibling's rightmost child; the remaining pointers are compacted
into the original node; finally the provoking entry, when present, is added
to the left sibling if `lte(key, split_key)` and to the original (right)
node otherwise.  `none` models the out-of-range cell access when
`num_elements_to_move = 0`. -/
def splitSingleNode [DecidableEq K] (cmp : K → K → Bool) (keyTypeIsUInt64 : Bool)
    (node : CellNode K) (data : Option (NodeCell K)) : Option (SplitData K) :=
  let doBalancedSplit := ¬ keyTypeIsUInt64
  let n := node.cells.length
  let numElementsToMove := if doBalancedSplit then n / 2 else n - 1
  match node.cells.get? (numElementsToMove - 1) with
  | none => none
  | some splitCell =>
    if numElementsToMove = 0 then none
    else
      let splitKey := splitCell.key
      let newNodeInit : CellNode K :=
        { isPointers := node.isPointers, cells := [],
          additionalData := if node.isPointers then splitCell.childPage else 0 }
      let movedNode := (node.cells.take numElementsToMove).foldl
        (fun acc c => (addCellToNode cmp acc c).2) newNodeInit
      let rightAfterCompact : CellNode K :=
        { node with cells := node.cells.drop numElementsToMove }
      let (leftNode, rightNode) :=
        match data with
        | some c =>
          if keyLte cmp c.key splitKey then
            ((addCellToNode cmp movedNode c).2, rightAfterCompact)
          else
            (movedNode, (addCellToNode cmp rightAfterCompact c).2)
        | none => (movedNode, rightAfterCompact)
      some { movedNode := movedNode, leftNode := leftNode,
             rightNode := rightNode, splitKey := splitKey }

/-! ## Document value codec (claim C1)

Model of the document value classes of src/neversql/data/Document.h and
src/source/NeverSQL/data/Document.cpp.  The value classes that exist in the
source are `DoubleValue`, `IntegralValue<int32_t / int64_t / uint64_t>`,
`BooleanValue`, `StringValue`, `ArrayValue` and `Document`; there are no
classes for the `Null`, `BinaryData` and `DateTime` tags.  Numeric values
are represented by the bit pattern `memcpy` moves (a natural number below
2^32 or 2^64); an array stores its `element_type_` as the raw tag byte,
exactly as the C++ member holds whatever byte was read. -/

mutual

inductive DocValue where
  | double (bits : Nat)
  | boolean (b : Bool)
  | str (s : List Nat)
  | int32 (bits : Nat)
  | int64 (bits : Nat)
  | uint64 (v : Nat)
  | array (elemTag : Nat) (elems : DocList)
  | doc (fields : FieldList)
deriving DecidableEq

inductive DocList where
  | nil
  | cons (v : DocValue) (rest : DocList)
deriving DecidableEq

inductive FieldList where
  | nil
  | cons (name : List Nat) (v : DocValue) (rest : FieldList)
deriving DecidableEq

end

/-- The `type_` tag byte of each document value class
(`DataTypeEnum`, written by `DocumentValue::WriteToBuffer`). -/
def DocValue.tagByte : DocValue → Nat
  | .double _ => 1
  | .str _ => 2
  | .doc _ => 3
  | .array _ _ => 4
  | .boolean _ => 6
  | .int32 _ => 8
  | .int64 _ => 9
  | .uint64 _ => 10

mutual

/-- `DocumentValue::writeData` (the body bytes, without the leading tag). -/
def writeValueBody : DocValue → List Nat
  | .double bits => leBytes 8 bits
  | .boolean b => [if b then 1 else 0]
  | .str s => leBytes 4 s.length ++ s
  | .int32 bits => leBytes 4 bits
  | .int64 bits => leBytes 8 bits
  | .uint64 v => leBytes 8 v
  | .array elemTag elems =>
    elemTag % 256 :: (leBytes 4 (docListLength elems) ++ writeDocList elems)
  | .doc fields => leBytes 8 (fieldListLength fields) ++ writeFieldList fields

/-- `ArrayValue::writeData`'s loop: each element is written without its tag
(`WriteToBuffer(buffer, false)`). -/
def writeDocList : DocList → List Nat
  | .nil => []
  | .cons v rest => writeValueBody v ++ writeDocList rest

/-- `Document::writeData`'s loop: 2-byte name length, name bytes, then the
value with its tag (`WriteToBuffer(buffer)` with `write_enum = true`). -/
def writeFieldList : FieldList → List Nat
  | .nil => []
  | .cons name v rest =>
    leBytes 2 name.length ++ name ++ (v.tagByte :: writeValueBody v) ++ writeFieldList rest

def docListLength : DocList → Nat
  | .nil => 0
  | .cons _ rest => docListLength rest + 1

def fieldListLength : FieldList → Nat
  | .nil => 0
  | .cons _ _ rest => fieldListLength rest + 1

end

/-- `DocumentValue::WriteToBuffer(buffer, write_enum)`: the tag byte when
requested, then the data. -/
def WriteToBuffer (d : DocValue) (writeEnum : Bool) : List Nat :=
  (if writeEnum then [d.tagByte] else []) ++ writeValueBody d

mutual

/-- `makeDocumentValue(tag)` followed by `InitializeFromBuffer`: parses the
body of a value of the given tag byte from the buffer, returning the value
and the remaining bytes.  Returns `none` when `makeDocumentValue` has no
case for the tag (`Null = 0`, `Double = 1`, `BinaryData = 5`,
`DateTime = 7` and unknown bytes all hit `NOSQL_FAIL("unknown data type")`)
or when the buffer is too short for a read (out-of-bounds `memcpy`).
`fuel` bounds the recursion depth; it decreases at each nested value. -/
def readValue : Nat → Nat → List Nat → Option (DocValue × List Nat)
  | 0, _, _ => none
  | _ + 1, 2, buf =>
    let len := leVal (buf.take 4)
    if 4 + len ≤ buf.length then
      some (.str ((buf.drop 4).take len), buf.drop (4 + len))
    else none
  | fuel + 1, 3, buf =>
    if 8 ≤ buf.length then
      match readFields fuel (leVal (buf.take 8)) (buf.drop 8) with
      | some (fs, rest) => some (.doc fs, rest)
      | none => none
    else none
  | fuel + 1, 4, buf =>
    if 5 ≤ buf.length then
      let elemTag := buf.take 1
      let count := leVal ((buf.drop 1).take 4)
      match readElems fuel (leVal elemTag) count (buf.drop 5) with
      | some (es, rest) => some (.array (leVal elemTag) es, rest)
      | none => none
    else none
  | _ + 1, 6, buf =>
    match buf with
    | b :: rest => some (.boolean (b ≠ 0), rest)
    | [] => none
  | _ + 1, 8, buf =>
    if 4 ≤ buf.length then some (.int32 (leVal (buf.take 4)), buf.drop 4) else none
  | _ + 1, 9, buf =>
    if 8 ≤ buf.length then some (.int64 (leVal (buf.take 8)), buf.drop 8) else none
  | _ + 1, 10, buf =>
    if 8 ≤ buf.length then some (.uint64 (leVal (buf.take 8)), buf.drop 8) else none
  | _ + 1, _, _ => none

/-- `ArrayValue::initializeFromBuffer`'s loop: `count` elements, each read
through `makeDocumentValue(element_type_)` — so an unsupported element tag
fails only when at least one element is read. -/
def readElems (fuel : Nat) (elemTag : Nat) : Nat → List Nat →
    Option (DocList × List Nat)
  | 0, buf => some (.nil, buf)
  | n + 1, buf =>
    match readValue fuel elemTag buf with
    | some (v, rest) =>
      match readElems fuel elemTag n rest with
      | some (es, rest') => some (.cons v es, rest')
      | none => none
    | none => none

/-- `Document::initializeFromBuffer`'s loop: `count` fields, each a 2-byte
name length, the name, a tag byte, and the value body read through
`makeDocumentValue(tag)`. -/
def readFields (fuel : Nat) : Nat → List Nat → Option (FieldList × List Nat)
  | 0, buf => some (.nil, buf)
  | n + 1, buf =>
    if 2 ≤ buf.length then
      let nameLen := leVal (buf.take 2)
      let afterLen := buf.drop 2
      if nameLen + 1 ≤ afterLen.length then
        let name := afterLen.take nameLen
        let afterName := afterLen.drop nameLen
        match afterName with
        | t :: body =>
          match readValue fuel t body with
          | some (v, rest) =>
            match readFields fuel n rest with
            | some (fs, rest') => some (.cons name v fs, rest')
            | none => none
          | none => none
        | [] => none
      else none
    else none

end

/-- `ReadFromBuffer` (src/source/NeverSQL/data/Document.cpp, lines 365-374):
read the tag byte, construct through `makeDocumentValue`, initialize from
the remaining bytes.  The C++ loop has no explicit bound; the fuel
`buf.length` is sufficient for every buffer the codec itself produces. -/
def ReadFromBuffer (buf : List Nat) : Option DocValue :=
  match buf with
  | [] => none
  | t :: rest => (readValue buf.length t rest).map (·.1)

/-- `ReadDocumentFromBuffer` (lines 376-391): empty buffer gives an empty
result; with `expect_enum` the first byte must be the `Document` tag
(`NOSQL_ASSERT`); the rest is parsed as document fields. -/
def ReadDocumentFromBuffer (buf : List Nat) (expectEnum : Bool) : Option DocValue :=
  match buf with
  | [] => none
  | _ =>
    let body := if expectEnum then buf.drop 1 else buf
    if expectEnum ∧ buf.take 1 ≠ [3] then none
    else
      if 8 ≤ body.length then
        (readFields body.length (leVal (body.take 8)) (body.drop 8)).map
          (fun p => .doc p.1)
      else none

/-- The tag bytes `makeDocumentValue` can construct a value for. -/
def supportedTag (t : Nat) : Bool :=
  decide (t = 2 ∨ t = 3 ∨ t = 4 ∨ t = 6 ∨ t = 8 ∨ t = 9 ∨ t = 10)

mutual

/-- The document values the codec can read back: every value class that
`makeDocumentValue` knows how to rebuild, with representable sizes (string
length below 2^32, array count below 2^32, field-name length below 2^16,
field count below 2^64, numeric bit patterns of their C++ width) and, for
non-empty arrays, a supported element tag matched by every element. -/
def deserializable : DocValue → Bool
  | .double _ => false
  | .boolean _ => true
  | .str s => decide (s.length < 2 ^ 32)
  | .int32 bits => decide (bits < 2 ^ 32)
  | .int64 bits => decide (bits < 2 ^ 64)
  | .uint64 v => decide (v < 2 ^ 64)
  | .array elemTag elems =>
    decide (elemTag < 256) && decide (docListLength elems < 2 ^ 32) &&
      (match elems with
       | .nil => true
       | _ => supportedTag elemTag && elemsMatch elemTag elems)
  | .doc fields => decide (fieldListLength fields < 2 ^ 64) && fieldsOk fields

def elemsMatch (elemTag : Nat) : DocList → Bool
  | .nil => true
  | .cons v rest => decide (v.tagByte = elemTag) && deserializable v && elemsMatch elemTag rest

def fieldsOk : FieldList → Bool
  | .nil => true
  | .cons name v rest => decide (name.length < 2 ^ 16) && deserializable v && fieldsOk rest

end

mutual

/-- Nesting depth of a document value; bounds the fuel `readValue` needs. -/
def depthV : DocValue → Nat
  | .array _ elems => depthL elems + 1
  | .doc fields => depthF fields + 1
  | _ => 1

def depthL : DocList → Nat
  | .nil => 0
  | .cons v rest => max (depthV v) (depthL rest)

def depthF : FieldList → Nat
  | .nil => 0
  | .cons _ v rest => max (depthV v) (depthF rest)

end

/-! ## Overflow chain writing and reading (claim C2)

`EntryCreator::writeOverflowData` (src/neversql/data/btree/EntryCreator.cpp,
lines 159-239) modelled at cell level.  Each loop iteration writes one
continuation cell — keyed by the entry's overflow key — onto the current
overflow page and, when more data remains, moves on to a freshly allocated
overflow page, linking the cells by page number.  A chunk's cell carries
`entry_size = 8 + chunk length` and entry bytes
`[next page (8 bytes, 0 at the end of the chain)] ++ chunk`
(see `createOverflowDataEntry`).  Fresh overflow pages are empty slotted
pages of the common page size, so they share one capacity
(`CalculateSpaceRequirements(key).max_entry_space`), written `capFresh`;
the page current when the write starts may already hold data, so its
capacity `cap0` is arbitrary.  Fresh pages receive consecutive page numbers
starting at `nextFresh` (the data access layer never reuses a live page
number and page 0 is the meta page). -/

structure OverflowCellBytes where
  entrySize : Nat
  bytes : List Nat
deriving Repr, DecidableEq

/-- `[next overflow page: 8][entry_size: 2]` — the per-cell header size used
by `writeOverflowData` and `loadOverflowPage`. -/
def OVERFLOW_HEADER_SIZE : Nat := 10

/-- The write loop of `writeOverflowData`.  Per iteration on the page
`cur` of capacity `curCap`: another page is needed when
`max_entry_space - header_size < remaining`; in that case the next fresh
page is allocated, provided a fresh page passes the suitability check
`header_size + min(min_overflow_entry_capacity_, remaining) <
max_entry_space` (if an empty page fails, the allocation loop in
`load_next_overflow_page` never terminates — modelled as `none`).  The
chunk holds `min(max_entry_space - header_size, remaining)` bytes, and the
cell is written with the next page number (0 when the chain ends there).
`fuel` bounds the loop; `remaining.length + 1` always suffices. -/
def writeOverflowChainLoop (capFresh : Nat) :
    Nat → Nat → Nat → List Nat → Nat → Option (List (Nat × OverflowCellBytes))
  | _, _, _, _, 0 => none
  | cur, curCap, nextFresh, remaining, fuel + 1 =>
    if remaining.length = 0 then some []
    else
      let needsNextPage := curCap - OVERFLOW_HEADER_SIZE < remaining.length
      let chunkLen := min (curCap - OVERFLOW_HEADER_SIZE) remaining.length
      if needsNextPage then
        if OVERFLOW_HEADER_SIZE + min 16 remaining.length < capFresh then
          let cell : OverflowCellBytes :=
            { entrySize := 8 + chunkLen,
              bytes := leBytes 8 nextFresh ++ remaining.take chunkLen }
          match writeOverflowChainLoop capFresh nextFresh capFresh (nextFresh + 1)
              (remaining.drop chunkLen) fuel with
          | some cells => some ((cur, cell) :: cells)
          | none => none
        else none
      else
        let cell : OverflowCellBytes :=
          { entrySize := 8 + chunkLen,
            bytes := leBytes 8 0 ++ remaining.take chunkLen }
        some [(cur, cell)]

structure OverflowWriteResult where
  /-- The first overflow page, stored in the leaf's overflow header cell. -/
  firstPage : Nat
  /-- One continuation cell per overflow page of the chain, in chain order. -/
  cells : List (Nat × OverflowCellBytes)
deriving Repr, DecidableEq

/-- `EntryCreator::createOverflowEntry` + `loadOverflowPage` +
`writeOverflowData`: pick the tree's current overflow page (capacity
`cap0`) unless it cannot even hold a cell header, in which case start on a
fresh page; then run the write loop.  `cur0` is the current overflow page's
number and `nextFresh` the number the next allocated page will get. -/
def writeOverflowEntry (cap0 capFresh cur0 nextFresh : Nat) (payload : List Nat) :
    Option OverflowWriteResult :=
  if cap0 < OVERFLOW_HEADER_SIZE then
    if OVERFLOW_HEADER_SIZE + 16 < capFresh then
      (writeOverflowChainLoop capFresh nextFresh capFresh (nextFresh + 1) payload
          (payload.length + 1)).map
        (fun cells => { firstPage := nextFresh, cells := cells })
    else none
  else
    (writeOverflowChainLoop capFresh cur0 cap0 nextFresh payload
        (payload.length + 1)).map
      (fun cells => { firstPage := cur0, cells := cells })

/-- The entry bytes a `SinglePageEntry` yields for a continuation cell:
`entry_size` bytes starting after the serialized size. -/
def overflowCellData (c : OverflowCellBytes) : List Nat :=
  c.bytes.take c.entrySize

/-- `BTreeNodeMap::GetEntry(overflow_key)` on an overflow page: the cell of
this entry stored on page `page` (the model keys the chain's cells by page
number; in the page each is found by the entry's overflow key). -/
def lookupOverflowCell (cells : List (Nat × OverflowCellBytes)) (page : Nat) :
    Option OverflowCellBytes :=
  (cells.find? (fun p => p.1 = page)).map (·.2)

/-- `OverflowEntry` (src/source/NeverSQL/data/internals/OverflowEntry.cpp)
driven by the loop of `EntryToDocument`
(src/neversql/data/internals/DatabaseEntry.cpp, lines 68-78): on each page,
`setup` reads the first 8 entry bytes as the next page number, `GetData`
yields the entry bytes past those 8, and `Advance` follows the next page
until it is 0; the loop concatenates the chunks. -/
def followOverflowChain (cells : List (Nat × OverflowCellBytes)) :
    Nat → Nat → Option (List Nat)
  | _, 0 => none
  | cur, fuel + 1 =>
    match lookupOverflowCell cells cur with
    | none => none
    | some c =>
      let data := overflowCellData c
      let next := leVal (data.take 8)
      let chunk := data.drop 8
      if next = 0 then some chunk
      else
        match followOverflowChain cells next fuel with
        | some tailChunks => some (chunk ++ tailChunks)
        | none => none

/-! ## Byte-level slotted node and `addElementToNode` (claim C4)

Byte-level model of `BTreeNodeMap` (src/neversql/data/btree/
BTreeNodeMap.cpp) and `BTreeManager::addElementToNode`
(src/neversql/data/btree/BTree.cpp, lines 389-490).  A node is its page's
byte list; the header fields live at the offsets of `BTreePageHeader`.
The key comparator `cmp` is the tree's `cmp_` function on key byte spans.
-/

def headerFlags (page : List Nat) : Nat := readLE page 8 1

def freeBegin (page : List Nat) : Nat := readLE page 9 2

def freeEnd (page : List Nat) : Nat := readLE page 11 2

def areKeySizesSpecified (page : List Nat) : Bool := headerFlags page &&& 0x4 ≠ 0

def isPointersPage (page : List Nat) : Bool := headerFlags page &&& 0x1 ≠ 0

def isOverflowPage (page : List Nat) : Bool := headerFlags page &&& 0x8 ≠ 0

/-- `BTreeNodeMap::getPointers`: the 16-bit cell offsets stored between the
header and `free_begin`. -/
def getPointers (page : List Nat) : List Nat :=
  (List.range ((freeBegin page - POINTERS_START) / 2)).map
    (fun i => readLE page (POINTERS_START + 2 * i) 2)

/-- `BTreeNodeMap::getKeyForCell(cell_offset)`: skip the flags byte; read
a 2-byte key size followed by the key when the header says key sizes are
serialized, or a fixed 8-byte key otherwise. -/
def getKeyForCell (page : List Nat) (ptr : Nat) : List Nat :=
  if areKeySizesSpecified page then
    readBytes page (ptr + 3) (readLE page (ptr + 1) 2)
  else
    readBytes page (ptr + 1) 8

/-- `BTreeNodeMap::getCellLowerBoundByPK(key)`:
`std::ranges::lower_bound` over the pointer array, comparing each cell's
key with `cmp_`; yields the cell offset and its index, or `none` when every
cell key is less than `key`. -/
def getCellLowerBoundByPK (cmp : List Nat → List Nat → Bool) (page : List Nat)
    (key : List Nat) : Option (Nat × Nat) :=
  let ptrs := getPointers page
  (ptrs.findIdx? (fun ptr => ¬ cmp (getKeyForCell page ptr) key)).bind
    (fun i => (ptrs.get? i).map (fun ptr => (ptr, i)))

inductive ByteCell where
  | dataCell (flags : Nat) (key : List Nat) (data : List Nat)
  | pointersCell (key : List Nat) (pageNumber : Nat)
deriving Repr, DecidableEq

def ByteCell.key : ByteCell → List Nat
  | .dataCell _ k _ => k
  | .pointersCell k _ => k

/-- `BTreeNodeMap::getCell(cell_offset)`: read the cell flags
(`NOSQL_ASSERT` on an inactive cell is modelled as `none`), the key (sized
by the cell's `KeySizeIsSerialized` flag), then either the 8-byte child
page number (pointers page) or the entry data (2-byte inline size for a
single-page entry — skipped when the note flag marks it as serialized — or
the fixed 16 overflow-header bytes). -/
def getCell (page : List Nat) (cellOffset : Nat) : Option ByteCell :=
  let flags := readLE page cellOffset 1
  if flags &&& 0x80 = 0 then none
  else
    let keySizeSerialized := flags &&& 0x40 ≠ 0
    let keyStart := cellOffset + 1
    let key :=
      if keySizeSerialized then readBytes page (keyStart + 2) (readLE page keyStart 2)
      else readBytes page keyStart 8
    let entryOffset :=
      if keySizeSerialized then keyStart + 2 + (readLE page keyStart 2)
      else keyStart + 8
    if isPointersPage page then
      some (.pointersCell key (readLE page entryOffset 8))
    else
      let isSinglePage := flags &&& 0x1 ≠ 0
      let noteFlag := flags &&& 0x2 ≠ 0
      let potentialEntrySize := readLE page entryOffset 2
      let data :=
        if isSinglePage then
          readBytes page (entryOffset + (if noteFlag then 2 else 0)) potentialEntrySize
        else readBytes page entryOffset 16
      some (.dataCell flags key data)

/-- `BTreeManager::isUniqueKey`: the key is not unique exactly when the
lower-bound cell exists and its key equals the new key byte for byte.
`none` models the assertion inside `getCell`. -/
def isUniqueKeyPage (cmp : List Nat → List Nat → Bool) (page : List Nat)
    (key : List Nat) : Option Bool :=
  match getCellLowerBoundByPK cmp page key with
  | none => some true
  | some (ptr, _) =>
    match getCell page ptr with
    | none => none
    | some c => some (c.key ≠ key)

/-- `BTreeNodeMap::GetLargestKey`: key of the cell the last pointer refers
to. -/
def getLargestKey (page : List Nat) : Option (List Nat) :=
  (getPointers page).getLast?.map (getKeyForCell page)

/-- `BTreeNodeMap::sortKeys`: rewrite the pointer array sorted by the keys
of the cells pointed to (insertion sort; the keys are distinct, so any
sorting algorithm gives this result). -/
def insertPtrSorted (cmp : List Nat → List Nat → Bool) (page : List Nat) (ptr : Nat) :
    List Nat → List Nat
  | [] => [ptr]
  | q :: rest =>
    if cmp (getKeyForCell page ptr) (getKeyForCell page q) then ptr :: q :: rest
    else q :: insertPtrSorted cmp page ptr rest

def sortPtrs (cmp : List Nat → List Nat → Bool) (page : List Nat) :
    List Nat → List Nat
  | [] => []
  | p :: rest => insertPtrSorted cmp page p (sortPtrs cmp page rest)

def sortKeysOnPage (cmp : List Nat → List Nat → Bool) (page : List Nat) : List Nat :=
  let sorted := sortPtrs cmp page (getPointers page)
  writeBytes page POINTERS_START (sorted.flatMap (fun p => leBytes 2 p))

/-- The `StoreData` handed to `addElementToNode`, together with the entry
creator the B-tree delegates to.  `EntryCreator::GetRequestedSize` may
switch the creator into overflow mode, so it returns the requested size and
the overflow decision (`none` models its `NOSQL_REQUIRE` when the maximum
entry size is below the 16-byte minimum); `GenerateFlags` sees that
decision; `Create` writes the creator's part of the entry into the page at
an offset and returns the page and the offset after the entry. -/
structure StoreDataModel where
  key : List Nat
  requestedSize : Nat → Option (Nat × Bool)
  generateFlags : Bool → Nat
  create : List Nat → Nat → List Nat × Nat

/-- `BTreeManager::addElementToNode(node, data, unique_keys)`: check key
uniqueness through `lower_bound` first and return `false` with the page
untouched on a duplicate; then size the entry against the page's free
space (returning `false` when it does not fit), write the cell flags, the
key (preceded by its 2-byte size when the header asks for it), and the
creator's entry at the end of the free span; finally shrink `free_end`,
append the new cell offset to the pointer array, advance `free_begin`, and
sort the pointers when the new key is not the largest.  `maxEntrySize` is
the tree's `max_entry_size_`.  `none` models a failing `NOSQL_ASSERT` /
`NOSQL_REQUIRE`. -/
def addElementToNode (cmp : List Nat → List Nat → Bool) (maxEntrySize : Nat)
    (page : List Nat) (data : StoreDataModel) (uniqueKeys : Bool) :
    Option (Bool × List Nat) :=
  let dupCheck :=
    if uniqueKeys then isUniqueKeyPage cmp page data.key else some true
  match dupCheck with
  | none => none
  | some false => some (false, page)
  | some true =>
    let greatest := getLargestKey page
    let pointerSpace := 2
    let cellHeaderSpace :=
      1 + data.key.length + (if areKeySizesSpecified page then 2 else 0)
    let free := freeEnd page - freeBegin page
    let helperSpace := pointerSpace + cellHeaderSpace
    let maxAvailable := if helperSpace < free then free - helperSpace else 0
    let pageMax := if isOverflowPage page then 65535 else maxEntrySize
    let maximumEntrySize := min pageMax maxAvailable
    match data.requestedSize maximumEntrySize with
    | none => none
    | some (entrySize, needsOverflow) =>
      let cellSpace := cellHeaderSpace + entrySize
      let requiredSpace := pointerSpace + cellSpace
      if free < requiredSpace then some (false, page)
      else
        let entryEnd := freeEnd page
        let entryStart := entryEnd - cellSpace
        let flags := data.generateFlags needsOverflow ||| 0x80 |||
          (if areKeySizesSpecified page then 0x40 else 0)
        let p := writeBytes page entryStart [flags % 256]
        let off := entryStart + 1
        let (p, off) :=
          if areKeySizesSpecified page then
            (writeBytes p off (leBytes 2 data.key.length), off + 2)
          else (p, off)
        let p := writeBytes p off data.key
        let off := off + data.key.length
        let (p, off) := data.create p off
        if off ≠ entryEnd then none
        else
          let newFreeEnd := entryEnd - cellSpace
          let p := writeBytes p 11 (leBytes 2 newFreeEnd)
          let p := writeBytes p (freeBegin p) (leBytes 2 newFreeEnd)
          let p := writeBytes p 9 (leBytes 2 (freeBegin p + 2))
          let p :=
            match greatest with
            | some g => if cmp data.key g then sortKeysOnPage cmp p else p
            | none => p
          some (true, p)

/-- Well-formedness of the cells a node's pointers refer to: every cell is
active and its key-size flag agrees with the page header (the writer sets
both from the same source, see `BTreeManager::writeFlags`). -/
def cellsWellFormed (page : List Nat) : Bool :=
  (getPointers page).all (fun ptr =>
    readLE page ptr 1 &&& 0x80 ≠ 0 &&
      ((readLE page ptr 1 &&& 0x40 ≠ 0) = areKeySizesSpecified page))

/-- The keys stored in a node, in pointer order. -/
def nodeKeys (page : List Nat) : List (List Nat) :=
  (getPointers page).map (getKeyForCell page)

/-- `internal::CompareTrivial<uint64_t>`: memcpy both 8-byte key spans into
`uint64_t` values and compare with `<`. -/
def cmpUInt64 (a b : List Nat) : Bool :=
  decide (leVal a < leVal b)

/-! ### Concrete inputs used by witnesses and counterexamples -/

/-- A 64-byte leaf page (key sizes not serialized) holding one cell with
key 7: header flags 0, `free_begin = 33`, `free_end = 44`,
`reserved_start = 64`, page number 1; one pointer (offset 44); the cell has
flags `0x83` (active, note flag, single-page), key 7, entry size 1, one
data byte. -/
def examplePage : List Nat :=
  MAGIC_NOSQLBTR ++ [0] ++ leBytes 2 33 ++ leBytes 2 44 ++ leBytes 2 64 ++
    leBytes 8 1 ++ leBytes 8 0 ++ leBytes 2 44 ++ List.replicate 11 0 ++
    (0x83 :: (leBytes 8 7 ++ (leBytes 2 1 ++ [5]))) ++ List.replicate 8 0

/-- A `StoreData` for inserting key 7 with a 3-byte single-page entry. -/
def exampleStoreData : StoreDataModel :=
  { key := leBytes 8 7,
    requestedSize := fun _ => some (3, false),
    generateFlags := fun _ => 3,
    create := fun p o => (p, o + 3) }

/-- A two-frame cache with an empty free list: slot 0 holds a pinned page
(usage 1) and slot 1 an unpinned page; both second-chance bits are clear
and the clock hand is at slot 0. -/
def exampleCache : CacheState :=
  { frames := [{ pageNumber := 10, usageCount := 1, valid := true,
                 dirty := false, secondChance := false },
               { pageNumber := 11, usageCount := 0, valid := true,
                 dirty := false, secondChance := false }],
    nextVictim := 0, freeSlots := [], pageToSlot := [(10, 0), (11, 1)],
    flushed := [] }

/-- A one-frame cache whose only slot is free. -/
def exampleEmptyCache : CacheState :=
  { frames := [releaseDescriptor], nextVictim := 0, freeSlots := [0],
    pageToSlot := [], flushed := [] }

/-- A 64-byte cache-slot buffer with a stale byte 5 at offset 56 (the
offset where a uint64 root page keeps its auto-increment counter). -/
def exampleSlotBytes : List Nat :=
  List.replicate 56 0 ++ (5 :: List.replicate 7 0)

/-- A nested document: `{"a": uint64 5, "b": [int32 3, int32 4]}`. -/
def exampleDoc : DocValue :=
  .doc (.cons [97] (.uint64 5)
    (.cons [98] (.array 8 (.cons (.int32 3) (.cons (.int32 4) .nil))) .nil))

/-- A four-cell leaf node with uint64 keys 1..4. -/
def exampleCellNode : CellNode Nat :=
  { isPointers := false,
    cells := [⟨1, 0, []⟩, ⟨2, 0, []⟩, ⟨3, 0, []⟩, ⟨4, 0, []⟩],
    additionalData := 0 }

/-! # Theorems -/

/-! ## Claim C3: loading collections on re-open -/

/-- C3: the spec requires the constructor, on a database whose meta page
records a collection index, to iterate the persisted index and load every
collection into the in-memory map.  The code (`DataManager::DataManager`,
src/source/NeverSQL/database/DataManager.cpp, lines 29-34) only opens the
index tree and leaves `collections_` empty — the traversal is an
unimplemented TODO.  Concretely: create a database, add collection
"elements", and re-open from the persisted state: the persisted index holds
the collection, but the re-opened manager's collection map — hence the set
of collection names — is empty instead of `{"elements"}`. -/
theorem dataManager_reopen_loses_collections :
    (addCollection (openDataManager ⟨0, []⟩ 1) "elements" 2).db.indexEntries
        = [("elements", 2)] ∧
    collectionNames (addCollection (openDataManager ⟨0, []⟩ 1) "elements" 2)
        = ["elements"] ∧
    (addCollection (openDataManager ⟨0, []⟩ 1) "elements" 2).db.indexPage ≠ 0 ∧
    collectionNames
        (openDataManager (addCollection (openDataManager ⟨0, []⟩ 1) "elements" 2).db 9)
        = [] := by
  decide

/-! ## Claim C10: auto-increment counter initialization -/

/-- C10: `CreateNewBTree` is meant to start the auto-increment counter of a
uint64-keyed tree at zero, and `getNextPrimaryKey` reads the counter at
`reserved_start + 2 + 2*8 = reserved_start + 18`.  But the 8-byte zero that
`CreateNewBTree` writes lands at `reserved_start + 2` (the current-overflow-
page slot), so the counter itself is never initialized: on a 64-byte page
whose cache-slot buffer holds a stale byte 5 at offset 56
(= reserved_start + 18), the first auto-assigned key is 5, not 0 — while
the slot at `reserved_start + 2` does read back zero.  The
increment half of the claim behaves as stated: the next call returns 6. -/
theorem createNewBTree_counter_not_initialized :
    (getNextPrimaryKey (createNewBTreeRootPage exampleSlotBytes 3 .uint64)).1 = 5 ∧
    readLE (createNewBTreeRootPage exampleSlotBytes 3 .uint64)
        (readLE (createNewBTreeRootPage exampleSlotBytes 3 .uint64) 13 2 + 2) 8 = 0 ∧
    (getNextPrimaryKey
        (getNextPrimaryKey (createNewBTreeRootPage exampleSlotBytes 3 .uint64)).2).1
      = 6 := by
  decide

/-! ## Claim C5: clock eviction and pinned frames -/

/-- C5 counterexample: in `exampleCache` the hand points at a pinned frame
(usage 1) with a clear second-chance bit, while slot 1 is an unpinned frame
with a clear second-chance bit.  The claim says the sweep selects as victim
only a frame with second-chance clear *and* usage zero — that would be
slot 1 — and that the operation fails only when *every* slot is pinned.
Instead `evictNextVictim` stops at slot 0 without looking at its usage
count and the `NOSQL_ASSERT(tryReleasePage(...))` fails. -/
theorem evictNextVictim_fails_despite_unpinned_frame :
    evictNextVictim exampleCache = none ∧
    (exampleCache.frame 1).usageCount = 0 ∧
    (exampleCache.frame 1).secondChance = false ∧
    (exampleCache.frame 1).valid = true := by
  decide

/-- C5 amended: the clock sweep stops at the first frame from the hand
whose second-chance bit is already clear (bounded by one full cycle),
without regard to its usage count; that frame is the victim.  The eviction
fails — with an assertion failure, there is no CacheExhausted error in the
code — exactly when that frame is pinned, even if other frames are
unpinned; on success the victim is that frame and it is unpinned. -/
theorem evictNextVictim_victim_spec (st : CacheState) :
    (evictNextVictim st = none ↔
      0 < ((clockSweep st st.nextVictim st.frames.length).1.frame
            (clockSweep st st.nextVictim st.frames.length).2).usageCount) ∧
    (∀ st' v, evictNextVictim st = some (st', v) →
      v = (clockSweep st st.nextVictim st.frames.length).2 ∧
      ((clockSweep st st.nextVictim st.frames.length).1.frame v).usageCount = 0) := by
  rcases hsweep : clockSweep st st.nextVictim st.frames.length with ⟨stS, v⟩
  simp only [evictNextVictim, hsweep]
  by_cases hpin : 0 < (stS.frame v).usageCount
  · have htr : tryReleasePage stS v = (false, stS) := by
      unfold tryReleasePage
      simp [hpin]
    simp [htr, hpin]
  · have htr : (tryReleasePage stS v).1 = true := by
      unfold tryReleasePage
      by_cases hvalid : (stS.frame v).valid <;> simp [hpin, hvalid]
    rcases htr2 : tryReleasePage stS v with ⟨b, st2⟩
    rw [htr2] at htr
    subst htr
    constructor
    · simp [hpin]
    · intro st' v' h
      simp only [Option.some.injEq, Prod.mk.injEq] at h
      exact ⟨h.2.symm, by rw [← h.2]; omega⟩

/-- C5 amended witness: on the concrete cache whose sweep victim is the
pinned slot 0, the specification theorem yields the failure. -/
theorem evictNextVictim_victim_spec_witness :
    evictNextVictim exampleCache = none :=
  (evictNextVictim_victim_spec exampleCache).1.mpr (by decide)

/-! ## Claim C6: page handles and pins -/

/-- C6 counterexample: a handle from `GetNewPage` does not pin its frame.
On a one-slot cache with the slot free, `GetNewPage` returns a live handle
whose backing frame has usage count 0 — `initializePage` runs *after* the
handle is made and sets `usage_count = 0`, and no increment follows — so a
frame backing a live handle does not always have usage count > 0.
(Dropping that handle leaves the count at 0, because `decrementUsage` only
decrements positive counts.) -/
theorem getNewPage_handle_is_not_pinned :
    ∃ st' slot pn, cacheGetNewPage exampleEmptyCache 7 = some (st', slot, pn) ∧
      (st'.frame slot).usageCount = 0 ∧
      (cacheReleasePage st' pn).map (fun st2 => (st2.frame slot).usageCount)
        = some 0 := by
  refine ⟨_, 0, 7, rfl, by decide, by decide⟩

/-- C6 amended: a handle handed out by `GetPage` holds a pin — both its
paths return through `getPageFromSlot`, which increments the frame's usage
count, and dropping a handle (`RCPage::~RCPage` → `ReleasePage` →
`decrementUsage`) decrements a positive count by exactly one.  A handle
from `GetNewPage` holds no pin: its frame's usage count is 0 when the
handle is returned. -/
theorem pageHandle_pin_spec :
    (∀ st slot st' pn, getPageFromSlot st slot = some (st', pn) →
        (st'.frame slot).usageCount = (st.frame slot).usageCount + 1) ∧
    (∀ st pn st' slot pn', cacheGetNewPage st pn = some (st', slot, pn') →
        (st'.frame slot).usageCount = 0) ∧
    (∀ st slot, (st.frame slot).valid = true → 0 < (st.frame slot).usageCount →
        ((decrementUsage st slot).frame slot).usageCount
          = (st.frame slot).usageCount - 1) := by
  refine ⟨?_, ?_, ?_⟩
  · intro st slot st' pn h
    unfold getPageFromSlot at h
    by_cases hvalid : (st.frame slot).valid
    · simp only [hvalid, if_true, Option.some.injEq, Prod.mk.injEq] at h
      have hlt : slot < st.frames.length := by
        by_contra hge
        have : st.frame slot = releaseDescriptor := by
          unfold CacheState.frame
          exact List.getD_eq_default _ _ (Nat.le_of_not_lt hge)
        rw [this] at hvalid
        simp [releaseDescriptor] at hvalid
      rw [← h.1]
      unfold CacheState.setFrame CacheState.frame
      simp [List.getD_eq_getElem?_getD, List.getElem?_set_self' , hlt]
    · simp [hvalid] at h
  · intro st pn st' slot pn' h
    unfold cacheGetNewPage at h
    cases hslot : getSlot st with
    | none => rw [hslot] at h; exact absurd h (by simp)
    | some p =>
      rw [hslot] at h
      simp only [Option.some.injEq, Prod.mk.injEq] at h
      obtain ⟨h1, h2, _⟩ := h
      rw [← h1, ← h2]
      unfold cacheInitializePage CacheState.setFrame CacheState.frame
      by_cases hlt : p.2 < p.1.frames.length
      · simp [List.getD_eq_getElem?_getD, List.getElem?_set_self', hlt]
      · rw [List.getD_eq_default]
        · rfl
        · simp only [List.length_set]
          exact Nat.le_of_not_lt hlt
  · intro st slot hvalid hpos
    have hlt : slot < st.frames.length := by
      by_contra hge
      have : st.frame slot = releaseDescriptor := by
        unfold CacheState.frame
        exact List.getD_eq_default _ _ (Nat.le_of_not_lt hge)
      rw [this] at hvalid
      simp [releaseDescriptor] at hvalid
    unfold decrementUsage
    simp only [hvalid, hpos, and_self, if_true, true_and]
    unfold CacheState.setFrame CacheState.frame
    simp [List.getD_eq_getElem?_getD, List.getElem?_set_self', hlt]

/-- C6 amended witness: taking a handle to the cached page 11 (slot 1 of
the concrete cache) bumps that frame's usage count from 0 to 1, and the
fresh-page conjunct applies to the one-slot cache. -/
theorem pageHandle_pin_spec_witness :
    (∃ st' , getPageFromSlot exampleCache 1 = some (st', 11) ∧
      (st'.frame 1).usageCount = (exampleCache.frame 1).usageCount + 1) ∧
    (∃ st' slot pn, cacheGetNewPage exampleEmptyCache 7 = some (st', slot, pn) ∧
      (st'.frame slot).usageCount = 0) := by
  constructor
  · exact ⟨_, rfl, pageHandle_pin_spec.1 exampleCache 1 _ 11 rfl⟩
  · exact ⟨_, 0, 7, rfl, pageHandle_pin_spec.2.1 exampleEmptyCache 7 _ 0 7 rfl⟩

/-! ## Shared byte-level lemmas -/

theorem leBytes_length (k : Nat) : ∀ n, (leBytes k n).length = k := by
  induction k with
  | zero => intro n; rfl
  | succ k ih => intro n; simp [leBytes, ih]

theorem leVal_leBytes (k : Nat) : ∀ n, leVal (leBytes k n) = n % 256 ^ k := by
  induction k with
  | zero => intro n; simp [leBytes, leVal, Nat.mod_one]
  | succ k ih =>
    intro n
    simp only [leBytes, leVal, ih]
    have hmm : n % 256 % 256 = n % 256 := by simp
    rw [hmm]
    have hpow : (256 : Nat) ^ (k + 1) = 256 * 256 ^ k := by ring
    rw [hpow, Nat.mod_mul]

theorem writeBytes_length (p data : List Nat) (off : Nat)
    (h : off + data.length ≤ p.length) :
    (writeBytes p off data).length = p.length := by
  unfold writeBytes
  simp only [List.length_append, List.length_take, List.length_drop]
  omega

/-! ## Claim C7: overflow continuation cell layout -/

/-- Writing `a` at `off` and then `b` right after it is one combined write
of `a ++ b` at `off`. -/
theorem writeBytes_append (p : List Nat) (off : Nat) (a b : List Nat)
    (h : off ≤ p.length) :
    writeBytes (writeBytes p off a) (off + a.length) b = writeBytes p off (a ++ b) := by
  unfold writeBytes
  have hlen : (p.take off ++ a).length = off + a.length := by
    simp [Nat.min_eq_left h]
  rw [List.take_left' hlen]
  have hdrop : ((p.take off ++ a) ++ p.drop (off + a.length)).drop
      (off + a.length + b.length) = p.drop (off + (a ++ b).length) := by
    have h1 : off + a.length + b.length = (p.take off ++ a).length + b.length := by
      rw [hlen]
    rw [h1, List.drop_append, List.drop_drop]
    congr 1
    simp
    omega
  rw [hdrop]
  simp

theorem writeChunkBytes_eq (chunk : List Nat) : ∀ (p : List Nat) (off : Nat),
    off + chunk.length ≤ p.length →
    writeChunkBytes p chunk off = (writeBytes p off chunk, off + chunk.length) := by
  induction chunk with
  | nil =>
    intro p off _
    simp [writeChunkBytes, writeBytes]
  | cons b rest ih =>
    intro p off h
    simp only [writeChunkBytes]
    have hlen : (writeBytes p off [b]).length = p.length :=
      writeBytes_length p [b] off (by simp at h ⊢; omega)
    rw [ih (writeBytes p off [b]) (off + 1) (by simp at h ⊢; omega)]
    have heq : writeBytes (writeBytes p off [b]) (off + 1) rest
        = writeBytes p off (b :: rest) := by
      have := writeBytes_append p off [b] rest (by simp at h; omega)
      simpa using this
    rw [heq,
      (by simp only [List.length_cons]; omega : off + 1 + rest.length = off + (b :: rest).length)]

/-- C7 counterexample: the claim (and the spec) give the continuation-cell
payload as `[next_page:8][chunk_size:2][chunk_bytes]` with `chunk_size` the
number of chunk bytes.  Writing a one-byte chunk with `next_page = 0` on a
blank 20-byte page puts `[9, 0]` first — a 2-byte *entry size* equal to
`8 + 1`, preceding the next-page field — so the written bytes differ from
the claimed layout already at the first byte. -/
theorem overflowDataEntry_layout_counterexample :
    readBytes (createOverflowDataEntry (List.replicate 20 0) 0 0 [7]).1 0 11
        ≠ specOverflowCellPayload 0 [7] ∧
    readBytes (createOverflowDataEntry (List.replicate 20 0) 0 0 [7]).1 0 11
        = leBytes 2 9 ++ leBytes 8 0 ++ [7] := by
  decide

/-- C7 amended: every overflow continuation cell is written with entry
layout `[entry_size:2][next_page:8][chunk_bytes]`, where the 2-byte field
is `8 + chunk length` (the serialized entry size, covering the next-page
field and the chunk) — not `[next_page:8][chunk_size:2][chunk]`;
`next_page == 0` still marks the last cell of the chain. -/
theorem overflowDataEntry_layout (page : List Nat) (off nextPage : Nat)
    (chunk : List Nat) (h : off + 10 + chunk.length ≤ page.length) :
    createOverflowDataEntry page off nextPage chunk
      = (writeBytes page off (leBytes 2 (8 + chunk.length) ++ leBytes 8 nextPage ++ chunk),
         off + 10 + chunk.length) := by
  unfold createOverflowDataEntry
  have h2 : (writeBytes page off (leBytes 2 (8 + chunk.length))).length = page.length :=
    writeBytes_length page _ off (by rw [leBytes_length]; omega)
  have h8 : (writeBytes (writeBytes page off (leBytes 2 (8 + chunk.length))) (off + 2)
      (leBytes 8 nextPage)).length = page.length := by
    rw [writeBytes_length _ _ _ (by rw [leBytes_length, h2]; omega), h2]
  rw [writeChunkBytes_eq chunk _ (off + 10) (by rw [h8]; omega)]
  have e1 : writeBytes (writeBytes page off (leBytes 2 (8 + chunk.length))) (off + 2)
      (leBytes 8 nextPage)
      = writeBytes page off (leBytes 2 (8 + chunk.length) ++ leBytes 8 nextPage) := by
    have := writeBytes_append page off (leBytes 2 (8 + chunk.length)) (leBytes 8 nextPage)
      (by omega)
    simpa using this
  rw [e1]
  have e2 : writeBytes (writeBytes page off (leBytes 2 (8 + chunk.length) ++ leBytes 8 nextPage))
      (off + 10) chunk
      = writeBytes page off ((leBytes 2 (8 + chunk.length) ++ leBytes 8 nextPage) ++ chunk) := by
    have := writeBytes_append page off (leBytes 2 (8 + chunk.length) ++ leBytes 8 nextPage)
      chunk (by omega)
    have hl : (leBytes 2 (8 + chunk.length) ++ leBytes 8 nextPage).length = 10 := rfl
    rw [hl] at this
    exact this
  rw [e2]

/-- C7 amended witness: the layout theorem at the counterexample's input. -/
theorem overflowDataEntry_layout_witness :
    createOverflowDataEntry (List.replicate 20 0) 0 0 [7]
      = (writeBytes (List.replicate 20 0) 0 (leBytes 2 9 ++ leBytes 8 0 ++ [7]), 11) :=
  overflowDataEntry_layout (List.replicate 20 0) 0 0 [7] (by decide)

/-! ## Claim C9: WAL update records -/

theorem readBytes_length (p : List Nat) (off k : Nat) :
    (readBytes p off k).length = min k (p.length - off) := by
  simp [readBytes]

/-- Replaying writes only appends to the WAL record list. -/
theorem replayWrites_records_prefix (txn : Nat) :
    ∀ (ops : List (Nat × List Nat)) (pg : PageState) (wal : WalState)
      (pgF : PageState) (walF : WalState),
      replayWrites txn ops pg wal = some (pgF, walF) →
      ∃ t, walF.records = wal.records ++ t := by
  intro ops
  induction ops with
  | nil =>
    intro pg wal pgF walF h
    simp only [replayWrites, Option.some.injEq, Prod.mk.injEq] at h
    exact ⟨[], by rw [← h.2]; simp⟩
  | cons op rest ih =>
    intro pg wal pgF walF h
    rcases op with ⟨off, data⟩
    simp only [replayWrites] at h
    cases hstep : rcWriteToPage txn pg wal off data with
    | none => rw [hstep] at h; exact absurd h (by simp)
    | some res =>
      rw [hstep] at h
      rcases res with ⟨pg1, wal1, o⟩
      obtain ⟨t, ht⟩ := ih pg1 wal1 pgF walF h
      unfold rcWriteToPage at hstep
      by_cases hb : off + data.length ≤ pg.bytes.length
      · simp only [hb, if_true, Option.some.injEq, Prod.mk.injEq] at hstep
        exact ⟨_, by rw [ht, ← hstep.2.1, List.append_assoc]⟩
      · simp [hb] at hstep

/-- Main induction for the WAL claim, generalized over the starting WAL. -/
theorem replayWrites_wal_aux (txn : Nat) :
    ∀ (ops : List (Nat × List Nat)) (pg : PageState) (wal : WalState)
      (pgF : PageState) (walF : WalState),
      replayWrites txn ops pg wal = some (pgF, walF) →
      walF.records.map (·.lsn)
          = wal.records.map (·.lsn) ++ List.range' wal.nextLsn ops.length 1 ∧
      walF.records.length = wal.records.length + ops.length ∧
      ∀ i, i < ops.length →
        ∃ pgi wali r,
          replayWrites txn (ops.take i) pg wal = some (pgi, wali) ∧
          (walF.records.drop wal.records.length).get? i = some r ∧
          r.oldBytes = readBytes pgi.bytes r.offset r.newBytes.length ∧
          r.oldBytes.length = r.newBytes.length := by
  intro ops
  induction ops with
  | nil =>
    intro pg wal pgF walF h
    simp only [replayWrites, Option.some.injEq, Prod.mk.injEq] at h
    rw [← h.2]
    refine ⟨by simp, by simp, ?_⟩
    intro i hi
    exact absurd hi (by simp)
  | cons op rest ih =>
    intro pg wal pgF walF h
    rcases op with ⟨off, data⟩
    simp only [replayWrites] at h
    cases hstep : rcWriteToPage txn pg wal off data with
    | none => rw [hstep] at h; exact absurd h (by simp)
    | some res =>
      rw [hstep] at h
      rcases res with ⟨pg1, wal1, o⟩
      have hrest := ih pg1 wal1 pgF walF h
      unfold rcWriteToPage at hstep
      by_cases hb : off + data.length ≤ pg.bytes.length
      · simp only [hb, if_true, Option.some.injEq, Prod.mk.injEq] at hstep
        obtain ⟨hpg1, hwal1, ho⟩ := hstep
        set r0 : UpdateRecord :=
          { txn := txn, lsn := wal.nextLsn, page := pg.pageNumber, offset := off,
            oldBytes := readBytes pg.bytes off data.length, newBytes := data } with hr0
        have hwrecs : wal1.records = wal.records ++ [r0] := by rw [← hwal1]
        have hwnext : wal1.nextLsn = wal.nextLsn + 1 := by rw [← hwal1]
        obtain ⟨t, ht⟩ := replayWrites_records_prefix txn rest pg1 wal1 pgF walF h
        refine ⟨?_, ?_, ?_⟩
        · rw [hrest.1, hwrecs, hwnext]
          simp only [List.map_append, List.map_cons, List.map_nil, List.length_cons,
            List.append_assoc, List.singleton_append]
          rw [List.range'_succ]
        · rw [hrest.2.1, hwrecs]
          simp only [List.length_append, List.length_cons, List.length_nil]
          omega
        · intro i hi
          have e1 : walF.records.drop wal.records.length = r0 :: t := by
            rw [ht, hwrecs, List.append_assoc, List.drop_left' rfl]
            simp
          have e2 : walF.records.drop wal1.records.length = t := by
            rw [ht, List.drop_left' rfl]
          have hdropwal : walF.records.drop wal.records.length
              = r0 :: walF.records.drop wal1.records.length := by
            rw [e1, e2]
          cases i with
          | zero =>
            refine ⟨pg, wal, r0, by simp [replayWrites], ?_, by simp [hr0], ?_⟩
            · rw [hdropwal]; rfl
            · simp only [hr0, readBytes_length]
              omega
          | succ j =>
            obtain ⟨pgj, walj, r, hrep, hget, hold, hlen⟩ :=
              hrest.2.2 j (by simp at hi; omega)
            refine ⟨pgj, walj, r, ?_, ?_, hold, hlen⟩
            · simp only [List.take_succ_cons, replayWrites]
              rw [show rcWriteToPage txn pg wal off data = some (pg1, wal1, o) from ?_]
              · exact hrep
              · unfold rcWriteToPage
                simp only [hb, if_true]
                rw [hpg1, hwal1, ho]
            · rw [hdropwal]
              simpa using hget
      · simp [hb] at hstep

/-- C9: every UPDATE record appended by a transactional page write through
`RCPage::writeToPage` carries the next LSN — so across any successful
sequence of writes the LSNs are exactly `1, 2, ..., n`, strictly
increasing from 1 — and each record's `old_bytes` equals the bytes stored
at `(page, offset)` immediately before that write (the page state after
replaying the preceding writes), with `old_bytes` and `new_bytes` of equal
size. -/
theorem walUpdate_monotone_and_oldBytes (txn : Nat) (ops : List (Nat × List Nat))
    (pg : PageState) (pgF : PageState) (walF : WalState)
    (h : replayWrites txn ops pg walInit = some (pgF, walF)) :
    walF.records.map (·.lsn) = List.range' 1 ops.length 1 ∧
    walF.records.Pairwise (fun a b => a.lsn < b.lsn) ∧
    walF.records.length = ops.length ∧
    (∀ i, i < ops.length →
      ∃ pgi wali r,
        replayWrites txn (ops.take i) pg walInit = some (pgi, wali) ∧
        walF.records.get? i = some r ∧
        r.oldBytes = readBytes pgi.bytes r.offset r.newBytes.length ∧
        r.oldBytes.length = r.newBytes.length) := by
  have haux := replayWrites_wal_aux txn ops pg walInit pgF walF h
  have hmap : walF.records.map (·.lsn) = List.range' 1 ops.length 1 := by
    have := haux.1
    simpa [walInit] using this
  refine ⟨hmap, ?_, by simpa [walInit] using haux.2.1, ?_⟩
  · have hpair : (walF.records.map (·.lsn)).Pairwise (· < ·) := by
      rw [hmap]
      exact List.pairwise_lt_range' ..
    exact (List.pairwise_map).mp hpair
  · intro i hi
    obtain ⟨pgi, wali, r, hrep, hget, hold, hlen⟩ := haux.2.2 i hi
    exact ⟨pgi, wali, r, hrep, by simpa [walInit] using hget, hold, hlen⟩

/-! ## Claim C4: duplicate keys are rejected before any write -/

/-- `findIdx?` returns the index of the first element satisfying the
predicate. -/
theorem findIdx?_eq_some_of_first {α : Type} (p : α → Bool) :
    ∀ (l : List α) (j : Nat) (hj : j < l.length),
      p (l.get ⟨j, hj⟩) = true →
      (∀ i (hi : i < l.length), i < j → p (l.get ⟨i, hi⟩) = false) →
      l.findIdx? p = some j := by
  intro l
  induction l with
  | nil => intro j hj _ _; exact absurd hj (by simp)
  | cons x xs ih =>
    intro j hj hpj hlt
    cases j with
    | zero =>
      rw [List.findIdx?_cons]
      simp only [List.get] at hpj
      simp [hpj]
    | succ k =>
      rw [List.findIdx?_cons]
      have h0 : p x = false := hlt 0 (by simp) (by omega)
      rw [h0]
      simp only [Bool.false_eq_true, if_false, List.findIdx?_succ]
      have hxs : xs.findIdx? p = some k := by
        refine ih k (by simpa using hj) (by simpa using hpj) ?_
        intro i hi hik
        have := hlt (i + 1) (by simpa using hi) (by omega)
        simpa using this
      rw [hxs]
      rfl

/-- On a well-formed cell, `getCell` succeeds and reads the same key as
`getKeyForCell`. -/
theorem getCell_key_eq (page : List Nat) (ptr : Nat)
    (hactive : readLE page ptr 1 &&& 0x80 ≠ 0)
    (hflag : (readLE page ptr 1 &&& 0x40 ≠ 0) = (areKeySizesSpecified page = true)) :
    ∃ c, getCell page ptr = some c ∧ c.key = getKeyForCell page ptr := by
  by_cases hk : areKeySizesSpecified page <;>
    by_cases hp : isPointersPage page <;>
      simp [getCell, getKeyForCell, ByteCell.key, hactive, hflag, hk, hp]

/-- C4: inserting a key that is already present in a leaf node through
`addElementToNode` with unique keys returns `false` and leaves the page's
bytes completely unchanged — the duplicate is found through `lower_bound`
(`isUniqueKey`) before any byte of the page is written.  The hypotheses
state the node's standing invariants: the pointer array is sorted strictly
by the comparator, the comparator is irreflexive at the key, and the cells
are active with key-size flags matching the header. -/
theorem addElementToNode_duplicate_unchanged (cmp : List Nat → List Nat → Bool)
    (maxEntrySize : Nat) (page : List Nat) (sd : StoreDataModel)
    (hmem : sd.key ∈ nodeKeys page)
    (hsorted : List.Pairwise (fun a b => cmp a b = true) (nodeKeys page))
    (hirr : cmp sd.key sd.key = false)
    (hwf : cellsWellFormed page = true) :
    addElementToNode cmp maxEntrySize page sd true = some (false, page) := by
  obtain ⟨j, hj, hkeyj⟩ := List.getElem_of_mem hmem
  have hjlen : j < (getPointers page).length := by
    simpa [nodeKeys] using hj
  have hkey : getKeyForCell page ((getPointers page).get ⟨j, hjlen⟩) = sd.key := by
    have h1 : (nodeKeys page).get ⟨j, hj⟩ = sd.key := by
      simpa using hkeyj
    simpa [nodeKeys] using h1
  have hkeyE := hkey
  simp only [List.get_eq_getElem] at hkeyE
  have hlower : getCellLowerBoundByPK cmp page sd.key
      = some ((getPointers page).get ⟨j, hjlen⟩, j) := by
    simp only [getCellLowerBoundByPK]
    rw [findIdx?_eq_some_of_first _ (getPointers page) j hjlen ?pj ?plt]
    · simp [List.get?_eq_getElem?, List.getElem?_eq_getElem hjlen]
    case pj =>
      simp only [List.get_eq_getElem]
      simp [hkeyE, hirr]
    case plt =>
      intro i hi hij
      have hcmp : cmp ((nodeKeys page).get ⟨i, by simpa [nodeKeys] using hi⟩)
          ((nodeKeys page).get ⟨j, hj⟩) = true := by
        rw [List.pairwise_iff_getElem] at hsorted
        simp only [List.get_eq_getElem]
        exact hsorted i j (by simpa [nodeKeys] using hi) hj hij
      have h2 : (nodeKeys page).get ⟨j, hj⟩ = sd.key := by simpa using hkeyj
      rw [h2] at hcmp
      have h1 : (nodeKeys page).get ⟨i, by simpa [nodeKeys] using hi⟩
          = getKeyForCell page ((getPointers page).get ⟨i, hi⟩) := by
        simp [nodeKeys]
      rw [h1] at hcmp
      simp only [List.get_eq_getElem] at hcmp
      simp only [List.get_eq_getElem]
      simp [hcmp]
  have hptr_mem : (getPointers page).get ⟨j, hjlen⟩ ∈ getPointers page :=
    List.get_mem _ _ hjlen
  have hwfp := (List.all_eq_true.mp hwf) _ hptr_mem
  simp only [Bool.and_eq_true, decide_eq_true_eq] at hwfp
  obtain ⟨hactive, hflag⟩ := hwfp
  obtain ⟨c, hc, hckey⟩ := getCell_key_eq page _ hactive hflag
  have huniq : isUniqueKeyPage cmp page sd.key = some false := by
    unfold isUniqueKeyPage
    simp only [hlower, hc]
    simp only [List.get_eq_getElem] at hckey
    simp [hckey, hkeyE]
  unfold addElementToNode
  simp [huniq]

/-- C4 witness: inserting the already-present key 7 into the concrete
one-cell leaf page returns `false` with the page unchanged. -/
theorem addElementToNode_duplicate_unchanged_witness :
    addElementToNode cmpUInt64 256 examplePage exampleStoreData true
      = some (false, examplePage) :=
  addElementToNode_duplicate_unchanged cmpUInt64 256 examplePage exampleStoreData
    (by decide) (by decide) (by decide) (by decide)

/-! ## Claim C8: `splitSingleNode` -/

theorem isUniqueKey_of_not_mem {K : Type} [DecidableEq K] (cmp : K → K → Bool)
    (node : CellNode K) (k : K) (h : k ∉ node.cells.map (·.key)) :
    isUniqueKey cmp node k = true := by
  unfold isUniqueKey
  cases hf : lowerBoundIdx cmp (node.cells.map (·.key)) k with
  | none => rfl
  | some i =>
    cases hc : node.cells.get? i with
    | none =>
      rw [List.get?_eq_getElem?] at hc
      simp [hc]
    | some c =>
      have hmem : c ∈ node.cells := List.get?_mem hc
      have hkmem : c.key ∈ node.cells.map (·.key) := List.mem_map_of_mem _ hmem
      have hne : c.key ≠ k := fun he => h (he ▸ hkmem)
      rw [List.get?_eq_getElem?] at hc
      simp [hc, hne]

theorem addCellToNode_fresh_ascending {K : Type} [DecidableEq K]
    (cmp : K → K → Bool) (hasym : ∀ a b, cmp a b = true → cmp b a = false)
    (acc : CellNode K) (c : NodeCell K)
    (hpw : ((acc.cells ++ [c]).map (·.key)).Pairwise (fun a b => cmp a b = true)) :
    addCellToNode cmp acc c = (true, { acc with cells := acc.cells ++ [c] }) := by
  have hirr : ∀ a, cmp a a = false := by
    intro a
    cases ha : cmp a a with
    | false => rfl
    | true => rw [← ha]; exact hasym a a ha
  have hcross : ∀ a ∈ acc.cells, cmp a.key c.key = true := by
    intro a hmem
    rw [List.map_append, List.pairwise_append] at hpw
    exact hpw.2.2 a.key (List.mem_map_of_mem _ hmem) c.key (by simp)
  have hnotmem : c.key ∉ acc.cells.map (·.key) := by
    intro hmem
    obtain ⟨a, hamem, hak⟩ := List.mem_map.mp hmem
    have := hcross a hamem
    rw [hak] at this
    rw [hirr c.key] at this
    exact Bool.false_ne_true this
  unfold addCellToNode
  rw [if_neg (by simp [isUniqueKey_of_not_mem cmp acc c.key hnotmem])]
  cases hg : (acc.cells.map (·.key)).getLast? with
  | none => rfl
  | some g =>
    have hgmem : g ∈ acc.cells.map (·.key) := List.mem_of_mem_getLast? hg
    obtain ⟨a, hamem, hak⟩ := List.mem_map.mp hgmem
    have hcg : cmp c.key g = false := by
      have h1 : cmp a.key c.key = true := hcross a hamem
      rw [hak] at h1
      exact hasym g c.key h1
    simp [hcg]

theorem foldl_addCellToNode_ascending {K : Type} [DecidableEq K]
    (cmp : K → K → Bool) (hasym : ∀ a b, cmp a b = true → cmp b a = false) :
    ∀ (cs : List (NodeCell K)) (acc : CellNode K),
      ((acc.cells ++ cs).map (·.key)).Pairwise (fun a b => cmp a b = true) →
      cs.foldl (fun a c => (addCellToNode cmp a c).2) acc
        = { acc with cells := acc.cells ++ cs } := by
  intro cs
  induction cs with
  | nil => intro acc _; simp
  | cons c rest ih =>
    intro acc hpw
    have hstep := addCellToNode_fresh_ascending cmp hasym acc c ?hpw1
    case hpw1 =>
      refine List.Pairwise.sublist ?_ hpw
      refine List.Sublist.map _ ?_
      exact (List.append_sublist_append_left _).mpr (by simp)
    simp only [List.foldl_cons, hstep]
    rw [ih { acc with cells := acc.cells ++ [c] } (by simpa using hpw)]
    simp

theorem mem_insertSorted {K : Type} (cmp : K → K → Bool) (c a : NodeCell K) :
    ∀ (l : List (NodeCell K)), a ∈ insertSorted cmp c l ↔ a = c ∨ a ∈ l := by
  intro l
  induction l with
  | nil => simp [insertSorted]
  | cons d rest ih =>
    unfold insertSorted
    by_cases hcmp : cmp c.key d.key
    · simp [hcmp]
    · simp only [hcmp, Bool.false_eq_true, if_false, List.mem_cons, ih]
      tauto

theorem mem_sortCells {K : Type} (cmp : K → K → Bool) (a : NodeCell K) :
    ∀ (l : List (NodeCell K)), a ∈ sortCells cmp l ↔ a ∈ l := by
  intro l
  induction l with
  | nil => simp [sortCells]
  | cons d rest ih =>
    unfold sortCells
    rw [mem_insertSorted, ih]
    simp

theorem mem_addCellToNode {K : Type} [DecidableEq K] (cmp : K → K → Bool)
    (node : CellNode K) (c : NodeCell K)
    (hnotmem : c.key ∉ node.cells.map (·.key)) :
    c ∈ (addCellToNode cmp node c).2.cells := by
  unfold addCellToNode
  rw [if_neg (by simp [isUniqueKey_of_not_mem cmp node c.key hnotmem])]
  cases hlast : (node.cells.map (·.key)).getLast? with
  | none => simp
  | some g =>
    by_cases hcmp : cmp c.key g = true
    · simp only [hcmp, if_true]
      rw [mem_sortCells]
      simp
    · simp [hcmp]

/-- C8: splitting a non-root node with `N` cells through `splitSingleNode`
moves the `N-1` (key type uint64: unbalanced) or `N/2` (otherwise:
balanced) low cells into the newly allocated left sibling, returns as
separator the key of the last cell moved, and re-inserts the provoking
entry into the left sibling exactly when `lte(key, separator)` holds.
Hypotheses: the comparator is asymmetric (both installed comparators are
strict orders), the node's cells are strictly sorted, the provoking key is
not already present, and the node has at least two cells. -/
theorem splitSingleNode_spec {K : Type} [DecidableEq K] (cmp : K → K → Bool)
    (keyTypeIsUInt64 : Bool) (node : CellNode K) (c : NodeCell K)
    (hasym : ∀ a b, cmp a b = true → cmp b a = false)
    (hsorted : (node.cells.map (·.key)).Pairwise (fun a b => cmp a b = true))
    (hnotmem : c.key ∉ node.cells.map (·.key))
    (hN : 2 ≤ node.cells.length) :
    ∃ r, splitSingleNode cmp keyTypeIsUInt64 node (some c) = some r ∧
      r.movedNode.cells = node.cells.take
        (if keyTypeIsUInt64 then node.cells.length - 1 else node.cells.length / 2) ∧
      r.movedNode.cells.length
        = (if keyTypeIsUInt64 then node.cells.length - 1 else node.cells.length / 2) ∧
      (∃ sc, node.cells.get?
          ((if keyTypeIsUInt64 then node.cells.length - 1 else node.cells.length / 2) - 1)
            = some sc ∧ r.splitKey = sc.key) ∧
      (c ∈ r.leftNode.cells ↔ keyLte cmp c.key r.splitKey = true) := by
  have hmc1 : 1 ≤ (if keyTypeIsUInt64 then node.cells.length - 1 else node.cells.length / 2) := by
    cases keyTypeIsUInt64 <;> simp <;> omega
  have hmcle : (if keyTypeIsUInt64 then node.cells.length - 1 else node.cells.length / 2)
      ≤ node.cells.length := by
    cases keyTypeIsUInt64 <;> simp <;> omega
  have hmclt : (if keyTypeIsUInt64 then node.cells.length - 1 else node.cells.length / 2) - 1
      < node.cells.length := by omega
  have hget : node.cells.get?
      ((if keyTypeIsUInt64 then node.cells.length - 1 else node.cells.length / 2) - 1)
        = some (node.cells.get ⟨_, hmclt⟩) := by
    rw [List.get?_eq_getElem?, List.getElem?_eq_getElem hmclt]
    rfl
  set mc := if keyTypeIsUInt64 then node.cells.length - 1 else node.cells.length / 2 with hmcdef
  set sc := node.cells.get ⟨mc - 1, hmclt⟩ with hscdef
  set initNode : CellNode K :=
    CellNode.mk node.isPointers [] (if node.isPointers = true then sc.childPage else 0)
    with hinitdef
  set movedN : CellNode K :=
    CellNode.mk node.isPointers (node.cells.take mc)
      (if node.isPointers = true then sc.childPage else 0)
    with hmoveddef
  set rightN : CellNode K :=
    CellNode.mk node.isPointers (node.cells.drop mc) node.additionalData
    with hrightdef
  have hpwtake : ((initNode.cells ++ node.cells.take mc).map (·.key)).Pairwise
      (fun a b => cmp a b = true) := by
    rw [hinitdef]
    simp only [List.nil_append]
    rw [List.map_take]
    exact List.Pairwise.sublist (List.take_sublist _ _) hsorted
  have hmoved := foldl_addCellToNode_ascending cmp hasym (node.cells.take mc) initNode hpwtake
  have hmoved2 : (node.cells.take mc).foldl (fun a c => (addCellToNode cmp a c).2) initNode
      = movedN := by
    rw [hmoved, hinitdef, hmoveddef]
    simp
  have hnotmem_take : c.key ∉ (node.cells.take mc).map (·.key) := by
    intro hmem
    rw [List.map_take] at hmem
    exact hnotmem (List.mem_of_mem_take hmem)
  have hget2 : node.cells.get? (mc - 1) = some sc := by
    rw [hmcdef]
    exact hget
  have hmc0 : ¬ (mc = 0) := Nat.one_le_iff_ne_zero.mp hmc1
  have hres : splitSingleNode cmp keyTypeIsUInt64 node (some c)
      = some (SplitData.mk movedN
          (if keyLte cmp c.key sc.key then (addCellToNode cmp movedN c).2 else movedN)
          (if keyLte cmp c.key sc.key then rightN else (addCellToNode cmp rightN c).2)
          sc.key) := by
    simp only [splitSingleNode, ite_not]
    rw [← hmcdef]
    simp only [hget2, hmc0, if_false]
    rw [hmoved2]
    by_cases hlte : keyLte cmp c.key sc.key = true
    · simp [hlte, hrightdef]
    · simp only [Bool.not_eq_true] at hlte
      simp [hlte, hrightdef]
  refine ⟨_, hres, by rw [hmoveddef], ?_, ⟨sc, hget, rfl⟩, ?_⟩
  · rw [hmoveddef]
    simp only [List.length_take]
    exact Nat.min_eq_left hmcle
  · by_cases hlte : keyLte cmp c.key sc.key = true
    · simp only [hlte, if_true, iff_true]
      exact mem_addCellToNode cmp _ c hnotmem_take
    · simp only [Bool.not_eq_true] at hlte
      simp only [hlte, Bool.false_eq_true, if_false, iff_false]
      intro hmem
      exact hnotmem_take (List.mem_map_of_mem _ hmem)

/-- C8 witness: the split theorem at the concrete four-cell uint64 leaf
with provoking key 5 (an unbalanced split moving three cells, separator
key 3, provoking entry going right). -/
theorem splitSingleNode_spec_witness :
    ∃ r, splitSingleNode (fun a b : Nat => decide (a < b)) true exampleCellNode
        (some ⟨5, 0, []⟩) = some r ∧
      r.movedNode.cells = exampleCellNode.cells.take
        (if (true : Bool) then exampleCellNode.cells.length - 1
         else exampleCellNode.cells.length / 2) ∧
      r.movedNode.cells.length
        = (if (true : Bool) then exampleCellNode.cells.length - 1
           else exampleCellNode.cells.length / 2) ∧
      (∃ sc, exampleCellNode.cells.get?
          ((if (true : Bool) then exampleCellNode.cells.length - 1
            else exampleCellNode.cells.length / 2) - 1)
            = some sc ∧ r.splitKey = sc.key) ∧
      ((⟨5, 0, []⟩ : NodeCell Nat) ∈ r.leftNode.cells ↔
        keyLte (fun a b : Nat => decide (a < b)) (⟨5, 0, []⟩ : NodeCell Nat).key
          r.splitKey = true) :=
  splitSingleNode_spec (fun a b : Nat => decide (a < b)) true exampleCellNode ⟨5, 0, []⟩
    (fun a b h => by simp at h ⊢; omega) (by decide) (by decide) (by decide)

/-! ## Claim C2: overflow chain round trip -/

/-- Reading a chain is unaffected by an extra cell whose page is not among
the chain's cells. -/
theorem followOverflowChain_cons (x : Nat × OverflowCellBytes)
    (cells : List (Nat × OverflowCellBytes)) (hx : x.1 ∉ cells.map Prod.fst) :
    ∀ (fuel p : Nat) (r : List Nat), followOverflowChain cells p fuel = some r →
      followOverflowChain (x :: cells) p fuel = some r := by
  intro fuel
  induction fuel with
  | zero =>
    intro p r h
    exact absurd h (by simp [followOverflowChain])
  | succ f ih =>
    intro p r h
    unfold followOverflowChain at h ⊢
    cases hl : lookupOverflowCell cells p with
    | none => rw [hl] at h; exact absurd h (by simp)
    | some c =>
      rw [hl] at h
      have hpmem : p ∈ cells.map Prod.fst := by
        unfold lookupOverflowCell at hl
        cases hf : cells.find? (fun q => q.1 = p) with
        | none => rw [hf] at hl; cases hl
        | some q =>
          have hq : q.1 = p := by
            have := List.find?_some hf
            simpa using this
          have hqmem : q ∈ cells := List.mem_of_find?_eq_some hf
          rw [← hq]
          exact List.mem_map_of_mem _ hqmem
      have hxp : ¬ (x.1 = p) := fun he => hx (he ▸ hpmem)
      have hl2 : lookupOverflowCell (x :: cells) p = some c := by
        unfold lookupOverflowCell at hl ⊢
        rw [List.find?_cons_of_neg _ (by simpa using hxp)]
        exact hl
      rw [hl2]
      by_cases hnext : leVal ((overflowCellData c).take 8) = 0
      · simpa [hnext] using h
      · simp only [hnext, if_false] at h ⊢
        cases hrec : followOverflowChain cells (leVal ((overflowCellData c).take 8)) f with
        | none => rw [hrec] at h; exact absurd h (by simp)
        | some tailChunks =>
          rw [hrec] at h
          rw [ih _ _ hrec]
          exact h

/-- The entry bytes of a continuation cell decompose into the next-page
field and the chunk. -/
theorem overflowCellData_decomp (nf : Nat) (chunk : List Nat) :
    overflowCellData (OverflowCellBytes.mk (8 + chunk.length) (leBytes 8 nf ++ chunk))
      = leBytes 8 nf ++ chunk ∧
    ((leBytes 8 nf ++ chunk).take 8 = leBytes 8 nf) ∧
    ((leBytes 8 nf ++ chunk).drop 8 = chunk) := by
  refine ⟨?_, ?_, ?_⟩
  · unfold overflowCellData
    have hlen : (leBytes 8 nf ++ chunk).length = 8 + chunk.length := by
      simp [leBytes_length]
    rw [← hlen, List.take_length]
  · exact List.take_left' (leBytes_length 8 nf)
  · exact List.drop_left' (leBytes_length 8 nf)

/-- Following one more cell at the head of a chain. -/
theorem followOverflowChain_extend (cells : List (Nat × OverflowCellBytes))
    (cur nf chunkLen : Nat) (rem : List Nat)
    (hchunklt : chunkLen < rem.length)
    (hfollow : followOverflowChain cells nf cells.length = some (rem.drop chunkLen))
    (hpages : ∀ pc ∈ cells, nf ≤ pc.1)
    (hlt : cur < nf) (hnf64 : nf < 2 ^ 64) :
    followOverflowChain
        ((cur, OverflowCellBytes.mk (8 + chunkLen) (leBytes 8 nf ++ rem.take chunkLen))
          :: cells) cur (cells.length + 1) = some rem := by
  unfold followOverflowChain
  have hlook : lookupOverflowCell
      ((cur, OverflowCellBytes.mk (8 + chunkLen) (leBytes 8 nf ++ rem.take chunkLen))
        :: cells) cur
      = some (OverflowCellBytes.mk (8 + chunkLen) (leBytes 8 nf ++ rem.take chunkLen)) := by
    unfold lookupOverflowCell
    rw [List.find?_cons_of_pos _ (by simp)]
    rfl
  simp only [hlook]
  have hdecomp := overflowCellData_decomp nf (rem.take chunkLen)
  have htakelen : (rem.take chunkLen).length = chunkLen :=
    List.length_take_of_le (Nat.le_of_lt hchunklt)
  rw [htakelen] at hdecomp
  rw [hdecomp.1, hdecomp.2.1, hdecomp.2.2]
  rw [leVal_leBytes]
  have hnfmod : nf % 256 ^ 8 = nf := Nat.mod_eq_of_lt (by norm_num; omega)
  rw [hnfmod]
  have hnf0 : ¬ (nf = 0) := by omega
  simp only [hnf0, if_false]
  have hcons := followOverflowChain_cons
    (cur, OverflowCellBytes.mk (8 + chunkLen) (leBytes 8 nf ++ rem.take chunkLen)) cells
    (by
      intro hmem
      obtain ⟨pc, hpc, hpceq⟩ := List.mem_map.mp hmem
      have := hpages pc hpc
      omega)
    cells.length nf (rem.drop chunkLen) hfollow
  rw [hcons]
  simp

/-- A terminal chain cell (next page 0) yields its chunk. -/
theorem followOverflowChain_single (cur : Nat) (rem : List Nat) :
    followOverflowChain [(cur, OverflowCellBytes.mk (8 + rem.length) (leBytes 8 0 ++ rem))]
        cur 1 = some rem := by
  unfold followOverflowChain
  have hlook : lookupOverflowCell
      [(cur, OverflowCellBytes.mk (8 + rem.length) (leBytes 8 0 ++ rem))] cur
      = some (OverflowCellBytes.mk (8 + rem.length) (leBytes 8 0 ++ rem)) := by
    unfold lookupOverflowCell
    rw [List.find?_cons_of_pos _ (by simp)]
    rfl
  simp only [hlook]
  have hdecomp := overflowCellData_decomp 0 rem
  rw [hdecomp.1, hdecomp.2.1, hdecomp.2.2]
  rw [leVal_leBytes]
  simp

/-- The write loop of `writeOverflowData`, on a current page of the common
fresh capacity, succeeds and writes a chain that reads back to exactly the
remaining payload. -/
theorem writeChainLoop_correct (capFresh : Nat) (hcap : 26 < capFresh) :
    ∀ (fuel : Nat) (rem : List Nat) (cur nf : Nat),
      rem ≠ [] → rem.length ≤ fuel → 1 ≤ cur → cur < nf →
      nf + rem.length ≤ 2 ^ 64 →
      ∃ cells, writeOverflowChainLoop capFresh cur capFresh nf rem fuel = some cells ∧
        (∀ pc ∈ cells, pc.1 = cur ∨ nf ≤ pc.1) ∧
        followOverflowChain cells cur cells.length = some rem := by
  intro fuel
  induction fuel with
  | zero =>
    intro rem cur nf hne hlen _ _ _
    have hpos : 0 < rem.length := List.length_pos_iff_ne_nil.mpr hne
    exact absurd hlen (by omega)
  | succ f ih =>
    intro rem cur nf hne hlen hcur hlt hbound
    have hrem1 : 1 ≤ rem.length := List.length_pos_iff_ne_nil.mpr hne
    unfold writeOverflowChainLoop
    rw [if_neg (by omega)]
    have hchunk1 : 1 ≤ min (capFresh - OVERFLOW_HEADER_SIZE) rem.length := by
      unfold OVERFLOW_HEADER_SIZE
      omega
    by_cases hneeds : capFresh - OVERFLOW_HEADER_SIZE < rem.length
    · rw [if_pos hneeds, if_pos (by unfold OVERFLOW_HEADER_SIZE; omega)]
      have hchunkeq : min (capFresh - OVERFLOW_HEADER_SIZE) rem.length
          = capFresh - OVERFLOW_HEADER_SIZE := Nat.min_eq_left (Nat.le_of_lt hneeds)
      have hrem' : (rem.drop (min (capFresh - OVERFLOW_HEADER_SIZE) rem.length)) ≠ [] := by
        rw [← List.length_pos_iff_ne_nil, List.length_drop]
        omega
      obtain ⟨cells2, hw2, hp2, hf2⟩ := ih
        (rem.drop (min (capFresh - OVERFLOW_HEADER_SIZE) rem.length)) nf (nf + 1)
        hrem' (by rw [List.length_drop]; omega) (by omega) (by omega)
        (by rw [List.length_drop]; omega)
      rw [hw2]
      refine ⟨_, rfl, ?_, ?_⟩
      · intro pc hpc
        rcases List.mem_cons.mp hpc with hhd | htl
        · left; rw [hhd]
        · right
          rcases hp2 pc htl with h1 | h2
          · omega
          · omega
      · refine followOverflowChain_extend cells2 cur nf
          (min (capFresh - OVERFLOW_HEADER_SIZE) rem.length) rem (by omega) hf2 ?_ hlt
          (by omega)
        intro pc hpc
        rcases hp2 pc hpc with h1 | h2 <;> omega
    · rw [if_neg hneeds]
      have hchunkeq : min (capFresh - OVERFLOW_HEADER_SIZE) rem.length = rem.length := by
        omega
      refine ⟨_, rfl, ?_, ?_⟩
      · intro pc hpc
        rcases List.mem_cons.mp hpc with hhd | htl
        · left; rw [hhd]
        · exact absurd htl (by simp)
      · simp only [hchunkeq, List.take_length, List.length_cons, List.length_nil]
        exact followOverflowChain_single cur rem

/-- The first iteration of the write loop, on a current overflow page of
arbitrary capacity `cap0`, also succeeds and the chain reads back. -/
theorem writeChainLoop_first (capFresh : Nat) (hcap : 26 < capFresh)
    (rem : List Nat) (cur cap0 nf : Nat)
    (hne : rem ≠ []) (hcur : 1 ≤ cur) (hlt : cur < nf)
    (hbound : nf + rem.length < 2 ^ 64) :
    ∃ cells, writeOverflowChainLoop capFresh cur cap0 nf rem (rem.length + 1) = some cells ∧
      followOverflowChain cells cur cells.length = some rem := by
  have hrem1 : 1 ≤ rem.length := List.length_pos_iff_ne_nil.mpr hne
  unfold writeOverflowChainLoop
  rw [if_neg (by omega)]
  by_cases hneeds : cap0 - OVERFLOW_HEADER_SIZE < rem.length
  · rw [if_pos hneeds, if_pos (by unfold OVERFLOW_HEADER_SIZE; omega)]
    have hrem' : (rem.drop (min (cap0 - OVERFLOW_HEADER_SIZE) rem.length)) ≠ [] := by
      rw [← List.length_pos_iff_ne_nil, List.length_drop]
      omega
    obtain ⟨cells2, hw2, hp2, hf2⟩ := writeChainLoop_correct capFresh hcap rem.length
      (rem.drop (min (cap0 - OVERFLOW_HEADER_SIZE) rem.length)) nf (nf + 1)
      hrem' (by rw [List.length_drop]; omega) (by omega) (by omega)
      (by rw [List.length_drop]; omega)
    rw [hw2]
    refine ⟨_, rfl, ?_⟩
    refine followOverflowChain_extend cells2 cur nf
        (min (cap0 - OVERFLOW_HEADER_SIZE) rem.length) rem (by omega) hf2 ?_ hlt (by omega)
    intro pc hpc
    rcases hp2 pc hpc with h1 | h2 <;> omega
  · rw [if_neg hneeds]
    have hchunkeq : min (cap0 - OVERFLOW_HEADER_SIZE) rem.length = rem.length := by
      omega
    refine ⟨_, rfl, ?_⟩
    simp only [hchunkeq, List.take_length, List.length_cons, List.length_nil]
    exact followOverflowChain_single cur rem

/-- C2: writing a payload through the overflow path (`createOverflowEntry`
picking the current or a fresh overflow page, then the `writeOverflowData`
loop) succeeds, and following the chain from the first overflow page until
`next_page = 0`, concatenating the chunk bytes, yields exactly the
payload.  Side conditions: the payload is nonempty, a fresh page's entry
capacity exceeds the 26-byte suitability threshold, page numbers start at
1 and fresh numbers exceed the current page's, and far fewer than `2^64`
pages are consumed. -/
theorem overflowChain_roundtrip (cap0 capFresh cur0 nextFresh : Nat) (payload : List Nat)
    (hne : payload ≠ []) (hcap : 26 < capFresh) (hcur : 1 ≤ cur0)
    (hfresh : cur0 < nextFresh) (hbound : nextFresh + payload.length + 1 < 2 ^ 64) :
    ∃ res, writeOverflowEntry cap0 capFresh cur0 nextFresh payload = some res ∧
      followOverflowChain res.cells res.firstPage res.cells.length = some payload := by
  unfold writeOverflowEntry
  by_cases hsmall : cap0 < OVERFLOW_HEADER_SIZE
  · rw [if_pos hsmall, if_pos (by unfold OVERFLOW_HEADER_SIZE; omega)]
    obtain ⟨cells, hw, hf⟩ := writeChainLoop_first capFresh hcap payload nextFresh capFresh
      (nextFresh + 1) hne (by omega) (by omega) (by omega)
    rw [hw]
    exact ⟨_, rfl, hf⟩
  · rw [if_neg hsmall]
    obtain ⟨cells, hw, hf⟩ := writeChainLoop_first capFresh hcap payload cur0 cap0
      nextFresh hne hcur hfresh (by omega)
    rw [hw]
    exact ⟨_, rfl, hf⟩

/-- C2 witness: a 70-byte payload written on pages of 40-byte entry
capacity (three overflow cells) reads back exactly. -/
theorem overflowChain_roundtrip_witness :
    ∃ res, writeOverflowEntry 40 40 1 2 (List.range 70) = some res ∧
      followOverflowChain res.cells res.firstPage res.cells.length = some (List.range 70) :=
  overflowChain_roundtrip 40 40 1 2 (List.range 70) (by decide) (by decide) (by decide)
    (by decide) (by norm_num)

/-- C9 witness: two writes on a three-byte page produce records with LSNs
`[1, 2]` and correct old bytes. -/
theorem walUpdate_monotone_and_oldBytes_witness :
    ∃ pgF walF,
      replayWrites 0 [(0, [9]), (1, [4])] ⟨7, [1, 2, 3]⟩ walInit = some (pgF, walF) ∧
      walF.records.map (·.lsn) = List.range' 1 2 1 := by
  refine ⟨_, _, rfl, ?_⟩
  exact (walUpdate_monotone_and_oldBytes 0 [(0, [9]), (1, [4])] ⟨7, [1, 2, 3]⟩ _ _ rfl).1

/-! ## Claim C1: document value round trip -/

theorem one_le_depthV (d : DocValue) : 1 ≤ depthV d := by
  cases d <;> simp [depthV]

mutual

theorem depthV_le_body : ∀ d : DocValue, depthV d ≤ (writeValueBody d).length + 1
  | .double bits => by simp [depthV]
  | .boolean b => by simp [depthV]
  | .str s => by simp [depthV]
  | .int32 bits => by simp [depthV]
  | .int64 bits => by simp [depthV]
  | .uint64 v => by simp [depthV]
  | .array t es => by
    have h := depthL_le_body es
    simp only [depthV, writeValueBody, List.length_cons, List.length_append,
      leBytes_length]
    omega
  | .doc fs => by
    have h := depthF_le_body fs
    simp only [depthV, writeValueBody, List.length_append, leBytes_length]
    omega

theorem depthL_le_body : ∀ es : DocList, depthL es ≤ (writeDocList es).length + 1
  | .nil => by simp [depthL]
  | .cons v rest => by
    have h1 := depthV_le_body v
    have h2 := depthL_le_body rest
    simp only [depthL, writeDocList, List.length_append]
    omega

theorem depthF_le_body : ∀ fs : FieldList, depthF fs ≤ (writeFieldList fs).length + 1
  | .nil => by simp [depthF]
  | .cons name v rest => by
    have h1 := depthV_le_body v
    have h2 := depthF_le_body rest
    simp only [depthF, writeFieldList, List.length_append, List.length_cons]
    omega

end

/-- Reading a string body back. -/
theorem readValue_str (f : Nat) (s rest : List Nat) (h : s.length < 2 ^ 32) :
    readValue (f + 1) 2 (leBytes 4 s.length ++ (s ++ rest)) = some (.str s, rest) := by
  have htake : (leBytes 4 s.length ++ (s ++ rest)).take 4 = leBytes 4 s.length :=
    List.take_left' (leBytes_length 4 _)
  have hdrop : (leBytes 4 s.length ++ (s ++ rest)).drop 4 = s ++ rest :=
    List.drop_left' (leBytes_length 4 _)
  have hc : 4 + s.length ≤ (leBytes 4 s.length ++ (s ++ rest)).length := by
    simp [leBytes_length]
  have hdrop2 : (leBytes 4 s.length ++ (s ++ rest)).drop (4 + s.length) = rest := by
    rw [← List.append_assoc]
    exact List.drop_left' (by simp [leBytes_length])
  have hmod : s.length % 256 ^ 4 = s.length :=
    Nat.mod_eq_of_lt (lt_of_lt_of_le h (by norm_num))
  simp only [readValue, htake, leVal_leBytes, hmod, if_pos hc, hdrop, hdrop2,
    List.take_left]

/-- Reading an int32 body back. -/
theorem readValue_int32 (f bits : Nat) (rest : List Nat) (h : bits < 2 ^ 32) :
    readValue (f + 1) 8 (leBytes 4 bits ++ rest) = some (.int32 bits, rest) := by
  have hc : 4 ≤ (leBytes 4 bits ++ rest).length := by simp [leBytes_length]
  have hmod : bits % 256 ^ 4 = bits := Nat.mod_eq_of_lt (lt_of_lt_of_le h (by norm_num))
  simp only [readValue, List.take_left' (leBytes_length 4 bits),
    List.drop_left' (leBytes_length 4 bits), leVal_leBytes, hmod, if_pos hc]

/-- Reading an int64 body back. -/
theorem readValue_int64 (f bits : Nat) (rest : List Nat) (h : bits < 2 ^ 64) :
    readValue (f + 1) 9 (leBytes 8 bits ++ rest) = some (.int64 bits, rest) := by
  have hc : 8 ≤ (leBytes 8 bits ++ rest).length := by simp [leBytes_length]
  have hmod : bits % 256 ^ 8 = bits := Nat.mod_eq_of_lt (lt_of_lt_of_le h (by norm_num))
  simp only [readValue, List.take_left' (leBytes_length 8 bits),
    List.drop_left' (leBytes_length 8 bits), leVal_leBytes, hmod, if_pos hc]

/-- Reading a uint64 body back. -/
theorem readValue_uint64 (f v : Nat) (rest : List Nat) (h : v < 2 ^ 64) :
    readValue (f + 1) 10 (leBytes 8 v ++ rest) = some (.uint64 v, rest) := by
  have hc : 8 ≤ (leBytes 8 v ++ rest).length := by simp [leBytes_length]
  have hmod : v % 256 ^ 8 = v := Nat.mod_eq_of_lt (lt_of_lt_of_le h (by norm_num))
  simp only [readValue, List.take_left' (leBytes_length 8 v),
    List.drop_left' (leBytes_length 8 v), leVal_leBytes, hmod, if_pos hc]

/-- One field of `readFields`, reduced on bytes of the shape
`Document::writeData` produces for it. -/
theorem readFields_step (f n : Nat) (name : List Nat) (hname : name.length < 2 ^ 16)
    (t : Nat) (body : List Nat) :
    readFields (f + 1) (n + 1) (leBytes 2 name.length ++ (name ++ (t :: body)))
      = match readValue (f + 1) t body with
        | some (v, rest1) =>
          match readFields (f + 1) n rest1 with
          | some (fs, rest2) => some (.cons name v fs, rest2)
          | none => none
        | none => none := by
  have htake : (leBytes 2 name.length ++ (name ++ (t :: body))).take 2
      = leBytes 2 name.length := rfl
  have hdrop : (leBytes 2 name.length ++ (name ++ (t :: body))).drop 2
      = name ++ (t :: body) := rfl
  have hc1 : 2 ≤ (leBytes 2 name.length ++ (name ++ (t :: body))).length := by
    simp [leBytes_length]
  have hc2 : name.length + 1 ≤ (name ++ (t :: body)).length := by simp
  have hmod : name.length % 256 ^ 2 = name.length :=
    Nat.mod_eq_of_lt (lt_of_lt_of_le hname (by norm_num))
  simp only [readFields, htake, hdrop, leVal_leBytes, hmod, if_pos hc1, if_pos hc2,
    List.take_left, List.drop_left]

/-- For every fuel, the three readers invert the three writers on
deserializable values whose nesting depth fits in the fuel. -/
theorem readWrite_aux : ∀ fuel : Nat,
    (∀ d rest, deserializable d = true → depthV d ≤ fuel →
        readValue fuel d.tagByte (writeValueBody d ++ rest) = some (d, rest)) ∧
    (∀ tag es rest, elemsMatch tag es = true → depthL es ≤ fuel →
        readElems fuel tag (docListLength es) (writeDocList es ++ rest) = some (es, rest)) ∧
    (∀ fs rest, fieldsOk fs = true → depthF fs ≤ fuel →
        readFields fuel (fieldListLength fs) (writeFieldList fs ++ rest) = some (fs, rest)) := by
  intro fuel
  induction fuel with
  | zero =>
    refine ⟨?_, ?_, ?_⟩
    · intro d rest hd hdep
      have h1d := one_le_depthV d
      exact absurd hdep (by omega)
    · intro tag es rest hm hdep
      cases es with
      | nil => simp [writeDocList, docListLength, readElems]
      | cons v es' =>
        have h1d := one_le_depthV v
        simp only [depthL] at hdep
        exact absurd hdep (by omega)
    · intro fs rest hok hdep
      cases fs with
      | nil => simp [writeFieldList, fieldListLength, readFields]
      | cons name v fs' =>
        have h1d := one_le_depthV v
        simp only [depthF] at hdep
        exact absurd hdep (by omega)
  | succ f ih =>
    obtain ⟨ih1, ih2, ih3⟩ := ih
    have h1 : ∀ d rest, deserializable d = true → depthV d ≤ f + 1 →
        readValue (f + 1) d.tagByte (writeValueBody d ++ rest) = some (d, rest) := by
      intro d rest hd hdep
      cases d with
      | double bits => exact absurd hd (by simp [deserializable])
      | boolean b => cases b <;> simp [DocValue.tagByte, writeValueBody, readValue]
      | str s =>
        have hlen : s.length < 2 ^ 32 := by simpa [deserializable] using hd
        simpa [DocValue.tagByte, writeValueBody, List.append_assoc] using
          readValue_str f s rest hlen
      | int32 bits =>
        have hb : bits < 2 ^ 32 := by simpa [deserializable] using hd
        simpa [DocValue.tagByte, writeValueBody] using readValue_int32 f bits rest hb
      | int64 bits =>
        have hb : bits < 2 ^ 64 := by simpa [deserializable] using hd
        simpa [DocValue.tagByte, writeValueBody] using readValue_int64 f bits rest hb
      | uint64 v =>
        have hb : v < 2 ^ 64 := by simpa [deserializable] using hd
        simpa [DocValue.tagByte, writeValueBody] using readValue_uint64 f v rest hb
      | array elemTag elems =>
        simp only [deserializable, Bool.and_eq_true, decide_eq_true_eq] at hd
        obtain ⟨⟨ht, hcnt⟩, hrest⟩ := hd
        have hmatch : elemsMatch elemTag elems = true := by
          cases elems with
          | nil => rfl
          | cons v r =>
            simp only [Bool.and_eq_true] at hrest
            exact hrest.2
        have hdep' : depthL elems ≤ f := by
          simp only [depthV] at hdep
          omega
        have hre := ih2 elemTag elems rest hmatch hdep'
        simp only [DocValue.tagByte, writeValueBody, List.cons_append, List.append_assoc]
        have htk1 : (elemTag % 256 :: (leBytes 4 (docListLength elems) ++
            (writeDocList elems ++ rest))).take 1 = [elemTag % 256] := rfl
        have hlv1 : leVal [elemTag % 256] = elemTag := by
          simp [leVal]
          omega
        have hd1 : (elemTag % 256 :: (leBytes 4 (docListLength elems) ++
            (writeDocList elems ++ rest))).drop 1
            = leBytes 4 (docListLength elems) ++ (writeDocList elems ++ rest) := rfl
        have htk4 : (leBytes 4 (docListLength elems) ++ (writeDocList elems ++ rest)).take 4
            = leBytes 4 (docListLength elems) :=
          List.take_left' (leBytes_length 4 _)
        have hd5 : (elemTag % 256 :: (leBytes 4 (docListLength elems) ++
            (writeDocList elems ++ rest))).drop 5 = writeDocList elems ++ rest := by
          show (leBytes 4 (docListLength elems) ++ (writeDocList elems ++ rest)).drop 4
              = writeDocList elems ++ rest
          exact List.drop_left' (leBytes_length 4 _)
        have hc5 : 5 ≤ (elemTag % 256 :: (leBytes 4 (docListLength elems) ++
            (writeDocList elems ++ rest))).length := by
          simp [leBytes_length]
        have hmod : docListLength elems % 256 ^ 4 = docListLength elems :=
          Nat.mod_eq_of_lt (lt_of_lt_of_le hcnt (by norm_num))
        simp only [readValue, htk1, hlv1, hd1, htk4, hd5, leVal_leBytes, hmod,
          if_pos hc5, hre]
      | doc fields =>
        simp only [deserializable, Bool.and_eq_true, decide_eq_true_eq] at hd
        obtain ⟨hcnt, hok⟩ := hd
        have hdep' : depthF fields ≤ f := by
          simp only [depthV] at hdep
          omega
        have hre := ih3 fields rest hok hdep'
        simp only [DocValue.tagByte, writeValueBody, List.append_assoc]
        have htk8 : (leBytes 8 (fieldListLength fields) ++
            (writeFieldList fields ++ rest)).take 8 = leBytes 8 (fieldListLength fields) :=
          List.take_left' (leBytes_length 8 _)
        have hd8 : (leBytes 8 (fieldListLength fields) ++
            (writeFieldList fields ++ rest)).drop 8 = writeFieldList fields ++ rest :=
          List.drop_left' (leBytes_length 8 _)
        have hc8 : 8 ≤ (leBytes 8 (fieldListLength fields) ++
            (writeFieldList fields ++ rest)).length := by
          simp [leBytes_length]
        have hmod : fieldListLength fields % 256 ^ 8 = fieldListLength fields :=
          Nat.mod_eq_of_lt (lt_of_lt_of_le hcnt (by norm_num))
        simp only [readValue, htk8, hd8, leVal_leBytes, hmod, if_pos hc8, hre]
    have h2core : ∀ n tag es rest, docListLength es ≤ n →
        elemsMatch tag es = true → depthL es ≤ f + 1 →
        readElems (f + 1) tag (docListLength es) (writeDocList es ++ rest)
          = some (es, rest) := by
      intro n
      induction n with
      | zero =>
        intro tag es rest hn hm hdep
        cases es with
        | nil => simp [writeDocList, docListLength, readElems]
        | cons v es' => exact absurd hn (by simp only [docListLength]; omega)
      | succ k ihn =>
        intro tag es rest hn hm hdep
        cases es with
        | nil => simp [writeDocList, docListLength, readElems]
        | cons v es' =>
          simp only [elemsMatch, Bool.and_eq_true, decide_eq_true_eq] at hm
          obtain ⟨⟨htag, hdv⟩, hm'⟩ := hm
          have hdepv : depthV v ≤ f + 1 := by
            simp only [depthL] at hdep
            exact le_trans (le_max_left _ _) hdep
          have hdep' : depthL es' ≤ f + 1 := by
            simp only [depthL] at hdep
            exact le_trans (le_max_right _ _) hdep
          have hn' : docListLength es' ≤ k := by
            simp only [docListLength] at hn
            omega
          have hv := h1 v (writeDocList es' ++ rest) hdv hdepv
          rw [htag] at hv
          simp only [docListLength, writeDocList, List.append_assoc, readElems, hv,
            ihn tag es' rest hn' hm' hdep']
    have h2 : ∀ tag es rest, elemsMatch tag es = true → depthL es ≤ f + 1 →
        readElems (f + 1) tag (docListLength es) (writeDocList es ++ rest)
          = some (es, rest) :=
      fun tag es rest => h2core (docListLength es) tag es rest (le_refl _)
    have h3core : ∀ n fs rest, fieldListLength fs ≤ n →
        fieldsOk fs = true → depthF fs ≤ f + 1 →
        readFields (f + 1) (fieldListLength fs) (writeFieldList fs ++ rest)
          = some (fs, rest) := by
      intro n
      induction n with
      | zero =>
        intro fs rest hn hok hdep
        cases fs with
        | nil => simp [writeFieldList, fieldListLength, readFields]
        | cons name v fs' => exact absurd hn (by simp only [fieldListLength]; omega)
      | succ k ihn =>
        intro fs rest hn hok hdep
        cases fs with
        | nil => simp [writeFieldList, fieldListLength, readFields]
        | cons name v fs' =>
          simp only [fieldsOk, Bool.and_eq_true, decide_eq_true_eq] at hok
          obtain ⟨⟨hnl, hdv⟩, hok'⟩ := hok
          have hdepv : depthV v ≤ f + 1 := by
            simp only [depthF] at hdep
            exact le_trans (le_max_left _ _) hdep
          have hdep' : depthF fs' ≤ f + 1 := by
            simp only [depthF] at hdep
            exact le_trans (le_max_right _ _) hdep
          have hn' : fieldListLength fs' ≤ k := by
            simp only [fieldListLength] at hn
            omega
          have hv := h1 v (writeFieldList fs' ++ rest) hdv hdepv
          have hstep := readFields_step f (fieldListLength fs') name hnl v.tagByte
            (writeValueBody v ++ (writeFieldList fs' ++ rest))
          simp only [fieldListLength, writeFieldList, List.append_assoc, List.cons_append]
          rw [hstep]
          simp only [hv, ihn fs' rest hn' hok' hdep']
    have h3 : ∀ fs rest, fieldsOk fs = true → depthF fs ≤ f + 1 →
        readFields (f + 1) (fieldListLength fs) (writeFieldList fs ++ rest)
          = some (fs, rest) :=
      fun fs rest => h3core (fieldListLength fs) fs rest (le_refl _)
    exact ⟨h1, h2, h3⟩

/-- C1 counterexample: the spec claims the round trip covers all leaf
types including double, but `makeDocumentValue` has no case for the
`Double` tag (its branch is commented out), so reading back a serialized
double fails. -/
theorem document_roundtrip_counterexample :
    ReadFromBuffer (WriteToBuffer (DocValue.double 0) true) = none := by
  have hbuf : WriteToBuffer (DocValue.double 0) true = 1 :: leBytes 8 0 := by
    simp [WriteToBuffer, writeValueBody, DocValue.tagByte]
  rw [hbuf]
  simp only [ReadFromBuffer, List.length_cons, leBytes_length]
  simp [readValue]

/-- C1 (corrected): for every document value of the types
`makeDocumentValue` can actually rebuild — string, document, array,
boolean, int32, int64 and uint64, with representable sizes, but not
double, datetime, binary or null — deserializing the serialization yields
the value back, at any nesting depth. -/
theorem document_roundtrip (d : DocValue) (hd : deserializable d = true) :
    ReadFromBuffer (WriteToBuffer d true) = some d := by
  have h := (readWrite_aux ((writeValueBody d).length + 1)).1 d [] hd (depthV_le_body d)
  rw [List.append_nil] at h
  have hbuf : WriteToBuffer d true = d.tagByte :: writeValueBody d := by
    simp [WriteToBuffer]
  rw [hbuf]
  simp only [ReadFromBuffer, List.length_cons]
  rw [h]
  rfl

/-- C1 witness: a document with a uint64 field and an int32-array field
round-trips. -/
theorem document_roundtrip_witness :
    deserializable exampleDoc = true ∧
      ReadFromBuffer (WriteToBuffer exampleDoc true) = some exampleDoc :=
  ⟨by decide, document_roundtrip exampleDoc (by decide)⟩

end NeverSQL
